import Mathlib

/-!
Verification of the dev-peace repository core against its specification.

The development shallowly embeds the Python source of the repository:

* `src/dev_peace/jira_integration/client.py` — the duration codec
  (`format_time_spent` / `parse_time_spent`);
* `src/dev_peace/git_monitor/branch_parser.py` and
  `src/dev_peace/git_monitor/detector.py` — the branch parser and the
  detector's issue extraction (regular expressions are translated into
  deterministic character-level matchers; strings are `List Char`);
* `src/dev_peace/core/status_manager.py` — the status-automation rules
  engine, instrumented with a trace of issue-tracker calls;
* `src/dev_peace/database/models.py` and
  `src/dev_peace/core/activity_monitor.py` — the session-lifecycle state
  machine (sessions table plus in-memory active-session map);
* `src/dev_peace/git_monitor/detector.py` (`GitActivityMonitor`) — the
  per-root commit-deduplication machine.

Timestamps are natural numbers (seconds); Python `int` is `Int` where the
source can go negative and `Nat` where it cannot.  Case mapping is
`Char.toUpper` / `Char.toLower` (the ASCII fragment of Python's
`str.upper` / `str.lower`, which is the fragment the source's regular
expressions exercise).

The file is organised as definitions first, then theorems.
-/

namespace DevPeace

/-! ## Definitions -/

/-! ### ASCII case mapping

Python's `str.upper` / `str.lower` on the ASCII letters coincide with
`Char.toUpper` / `Char.toLower`, which are used throughout; the branch-parser
regexes only ever feed ASCII letters, digits, `-` and `/` to `upper`. -/

/-! ### Decimal numerals

Python renders nonnegative integers in decimal (`f"{h}"`), and `int(...)`
reads a digit string back.  `toDecimal` / `digitsVal` model exactly that. -/

/-- The decimal digit character for `n < 10`. -/
def digitChar : Nat → Char
  | 0 => '0' | 1 => '1' | 2 => '2' | 3 => '3' | 4 => '4'
  | 5 => '5' | 6 => '6' | 7 => '7' | 8 => '8' | 9 => '9'
  | _ => '*'

/-- Decimal rendering of a natural number, as Python's `f"{n}"`. -/
def toDecimal (n : Nat) : List Char :=
  if h : n < 10 then [digitChar n]
  else toDecimal (n / 10) ++ [digitChar (n % 10)]
  termination_by n
  decreasing_by
    exact Nat.div_lt_self (by omega) (by omega)

/-- Value of a digit string, as Python's `int(...)` on a decimal numeral. -/
def digitsVal (cs : List Char) : Nat :=
  cs.foldl (fun a c => 10 * a + (c.toNat - 48)) 0

/-! ### Duration codec (`JiraClient.format_time_spent` / `parse_time_spent`)

`format_time_spent(minutes)` returns `"1m"` for `minutes <= 0`, and otherwise
renders `hours = minutes // 60` and `remaining = minutes % 60`, omitting a
zero part.  `parse_time_spent` runs `re.search` for `(\d+)d`, `(\d+)h` and
`(\d+)m`, sums days as 8·60 minutes, and returns at least 1. -/

/-- Embedding of `JiraClient.format_time_spent` (client.py lines 368-382).
`hours` and `remaining_minutes` of the source are inlined. -/
def format_time_spent (minutes : Int) : List Char :=
  if minutes ≤ 0 then ['1', 'm']
  else if minutes.toNat / 60 > 0 ∧ minutes.toNat % 60 > 0 then
    toDecimal (minutes.toNat / 60) ++ ('h' :: ' ' :: (toDecimal (minutes.toNat % 60) ++ ['m']))
  else if minutes.toNat / 60 > 0 then
    toDecimal (minutes.toNat / 60) ++ ['h']
  else
    toDecimal (minutes.toNat % 60) ++ ['m']

/-- Leftmost match of the regex `(\d+)t` for a literal non-digit character
`t`: at each start position, a maximal nonempty digit run must be followed
by `t`; the group value is returned.  This is Python `re.search(r"(\d+)t", s)`
followed by `int(match.group(1))`.  (`\d+` is greedy and `t` is not a digit,
so backtracking inside the run can never succeed; the maximal run suffices.) -/
def searchNumBefore (t : Char) : List Char → Option Nat
  | [] => none
  | c :: cs =>
    let run := (c :: cs).takeWhile Char.isDigit
    let rest := (c :: cs).dropWhile Char.isDigit
    if run ≠ [] ∧ rest.head? = some t then some (digitsVal run)
    else searchNumBefore t cs

/-- Embedding of `JiraClient.parse_time_spent` (client.py lines 384-407). -/
def parse_time_spent (cs : List Char) : Nat :=
  max (((searchNumBefore 'd' cs).getD 0) * (8 * 60) +
       ((searchNumBefore 'h' cs).getD 0) * 60 +
       (searchNumBefore 'm' cs).getD 0) 1

/-! ### Branch parser (`JiraBranchParser`, branch_parser.py)

The six `BRANCH_PATTERNS` regexes and the detector's four search patterns
are translated into character-level matchers.  Conventions:

* `[A-Z]` with `re.IGNORECASE` is `Char.isAlpha`; `\d` is `Char.isDigit`;
  `[^/]` is `notSlash`; `.` (no DOTALL) is `notNl`.
* Python's `$` matches at the end of the string or just before a final
  newline: `dollarEnd`.
* Each `+` is greedy.  In every pattern below a character-class `+` is
  followed by a literal outside the class (or by `$`), so backtracking a
  shorter run can never succeed and the maximal run (`takeWhile`) is the
  unique candidate; matchers are therefore written deterministically.
* `re.match` anchors at the start; `re.search` tries every start position
  left to right (`searchWith`).
-/

/-- The regex class `[^/]`. -/
def notSlash (c : Char) : Bool := c != '/'

/-- The regex class `.` without DOTALL (any character but a newline). -/
def notNl (c : Char) : Bool := c != '\n'

/-- Python's `$`: end of string, or just before a final newline. -/
def dollarEnd (cs : List Char) : Bool := decide (cs = [] ∨ cs = ['\n'])

/-- Match `[A-Z]+-\d+` (with IGNORECASE) at the start of the string,
returning the group and the remaining characters. -/
def matchIssueDash (cs : List Char) : Option (List Char × List Char) :=
  let a := cs.takeWhile Char.isAlpha
  match cs.dropWhile Char.isAlpha with
  | c :: r2 =>
    if c = '-' then
      if a.isEmpty || (r2.takeWhile Char.isDigit).isEmpty then none
      else some (a ++ '-' :: r2.takeWhile Char.isDigit, r2.dropWhile Char.isDigit)
    else none
  | [] => none

/-- Match `[A-Z]+\d+` (with IGNORECASE) at the start of the string,
returning the group and the remaining characters. -/
def matchIssuePlain (cs : List Char) : Option (List Char × List Char) :=
  let a := cs.takeWhile Char.isAlpha
  let r := cs.dropWhile Char.isAlpha
  let d := r.takeWhile Char.isDigit
  if a.isEmpty || d.isEmpty then none
  else some (a ++ d, r.dropWhile Char.isDigit)

/-- Match `(?:-(?P<desc>.+))?$`: either a `-` followed by a nonempty
description running to the end, or directly the end (the optional group is
greedy, so the description alternative is tried first). -/
def matchOptDescEnd (cs : List Char) : Option (Option (List Char)) :=
  match cs with
  | c :: r =>
    if c = '-' then
      if !(r.takeWhile notNl).isEmpty && dollarEnd (r.dropWhile notNl) then
        some (some (r.takeWhile notNl))
      else if dollarEnd (c :: r) then some none
      else none
    else if dollarEnd (c :: r) then some none else none
  | [] => some none

/-- Groups produced by one branch pattern: branch type, issue, description. -/
structure PatGroups where
  ty : Option (List Char)
  issue : List Char
  desc : Option (List Char)
deriving DecidableEq

/-- Pattern 1: `^(?P<type>[^/]+)/(?P<issue>[A-Z]+-\d+)(?:-(?P<desc>.+))?$`.
The type group is `[^/]+` followed by a literal `/`, hence exactly the
(nonempty) segment before the first slash. -/
def matchPat1 (cs : List Char) : Option PatGroups :=
  match cs.dropWhile notSlash with
  | c :: u =>
    if c = '/' then
      if (cs.takeWhile notSlash).isEmpty then none
      else
        match matchIssueDash u with
        | some (iss, r) =>
          match matchOptDescEnd r with
          | some d => some ⟨some (cs.takeWhile notSlash), iss, d⟩
          | none => none
        | none => none
    else none
  | [] => none

/-- Pattern 2: `^(?P<type>[^/]+)/(?P<issue>[A-Z]+-\d+)$`. -/
def matchPat2 (cs : List Char) : Option PatGroups :=
  match cs.dropWhile notSlash with
  | c :: u =>
    if c = '/' then
      if (cs.takeWhile notSlash).isEmpty then none
      else
        match matchIssueDash u with
        | some (iss, r) =>
          if dollarEnd r then some ⟨some (cs.takeWhile notSlash), iss, none⟩ else none
        | none => none
    else none
  | [] => none

/-- Pattern 3: `^(?P<issue>[A-Z]+-\d+)(?:-(?P<desc>.+))?$`. -/
def matchPat3 (cs : List Char) : Option PatGroups :=
  match matchIssueDash cs with
  | some (iss, r) =>
    match matchOptDescEnd r with
    | some d => some ⟨none, iss, d⟩
    | none => none
  | none => none

/-- Pattern 4: `^(?P<issue>[A-Z]+-\d+)$`. -/
def matchPat4 (cs : List Char) : Option PatGroups :=
  match matchIssueDash cs with
  | some (iss, r) => if dollarEnd r then some ⟨none, iss, none⟩ else none
  | none => none

/-- Pattern 5: `^(?P<type>[^/]+)/(?P<issue>[A-Z]+\d+)$`. -/
def matchPat5 (cs : List Char) : Option PatGroups :=
  match cs.dropWhile notSlash with
  | c :: u =>
    if c = '/' then
      if (cs.takeWhile notSlash).isEmpty then none
      else
        match matchIssuePlain u with
        | some (iss, r) =>
          if dollarEnd r then some ⟨some (cs.takeWhile notSlash), iss, none⟩ else none
        | none => none
    else none
  | [] => none

/-- Pattern 6: `^(?P<issue>[A-Z]+\d+)$`. -/
def matchPat6 (cs : List Char) : Option PatGroups :=
  match matchIssuePlain cs with
  | some (iss, r) => if dollarEnd r then some ⟨none, iss, none⟩ else none
  | none => none

/-- The `BRANCH_PATTERNS` loop of `parse_branch`: try the six patterns
top-down, first match wins. -/
def firstPattern (cs : List Char) : Option PatGroups :=
  match matchPat1 cs with
  | some g => some g
  | none =>
    match matchPat2 cs with
    | some g => some g
    | none =>
      match matchPat3 cs with
      | some g => some g
      | none =>
        match matchPat4 cs with
        | some g => some g
        | none =>
          match matchPat5 cs with
          | some g => some g
          | none => matchPat6 cs

/-- Embedding of `JiraBranchParser._is_valid_jira_issue`: the regex
`^[A-Z]+-?\d+$` (no IGNORECASE). -/
def validIssue (cs : List Char) : Bool :=
  let a := cs.takeWhile Char.isUpper
  let r1 := cs.dropWhile Char.isUpper
  let r2 := match r1 with
    | c :: u => if c = '-' then u else c :: u
    | [] => []
  !a.isEmpty && !(r2.takeWhile Char.isDigit).isEmpty &&
    dollarEnd (r2.dropWhile Char.isDigit)

/-- Embedding of the `BranchInfo` dataclass of branch_parser.py. -/
structure BranchInfo where
  original_name : List Char
  branch_type : Option (List Char) := none
  jira_issue : Option (List Char) := none
  description : Option (List Char) := none
  is_valid_jira_format : Bool := false
deriving DecidableEq

/-- Character-wise effect of `.replace('-', ' ').replace('_', ' ')`. -/
def normChar (c : Char) : Char := if c == '-' || c == '_' then ' ' else c

/-- Embedding of `JiraBranchParser.parse_branch` (branch_parser.py lines
50-80): empty names short-circuit; otherwise the first matching pattern
fills the fields — the type group lower-cased, the issue group upper-cased
and validated, the description with `-` and `_` replaced by spaces. -/
def parse_branch (cs : List Char) : BranchInfo :=
  if cs.isEmpty then { original_name := cs }
  else
    match firstPattern cs with
    | none => { original_name := cs }
    | some g =>
      { original_name := cs
        branch_type := g.ty.map (List.map Char.toLower)
        jira_issue := some (g.issue.map Char.toUpper)
        is_valid_jira_format := validIssue (g.issue.map Char.toUpper)
        description := g.desc.map (List.map normChar) }

/-- Embedding of `JiraBranchParser.extract_jira_issue` (branch_parser.py
lines 88-92). -/
def extract_jira_issue (cs : List Char) : Option (List Char) :=
  if (parse_branch cs).is_valid_jira_format then (parse_branch cs).jira_issue
  else none

/-- Transport of pattern groups along ASCII upper-casing (proof support for
the case-insensitivity statement). -/
def patUp (g : PatGroups) : PatGroups :=
  ⟨g.ty.map (List.map Char.toUpper), g.issue.map Char.toUpper,
   g.desc.map (List.map Char.toUpper)⟩

/-! ### Detector-side issue extraction
(`GitRepositoryDetector.extract_jira_issue`, detector.py lines 51-73).

Four unanchored patterns are tried with `re.search`; on a match the group is
upper-cased and checked against `^[A-Z]+-?\d+$`; on validation failure the
loop falls through to the next pattern. -/

/-- Match `[^/]+/([A-Z]+-\d+)` at the current position. -/
def detMatchTypeDash (cs : List Char) : Option (List Char) :=
  match cs.dropWhile notSlash with
  | c :: u =>
    if c = '/' then
      if (cs.takeWhile notSlash).isEmpty then none
      else (matchIssueDash u).map Prod.fst
    else none
  | [] => none

/-- Match `([A-Z]+-\d+)` at the current position. -/
def detMatchDash (cs : List Char) : Option (List Char) :=
  (matchIssueDash cs).map Prod.fst

/-- Match `[^/]+/([A-Z]+\d+)` at the current position. -/
def detMatchTypePlain (cs : List Char) : Option (List Char) :=
  match cs.dropWhile notSlash with
  | c :: u =>
    if c = '/' then
      if (cs.takeWhile notSlash).isEmpty then none
      else (matchIssuePlain u).map Prod.fst
    else none
  | [] => none

/-- Match `([A-Z]+\d+)` at the current position. -/
def detMatchPlain (cs : List Char) : Option (List Char) :=
  (matchIssuePlain cs).map Prod.fst

/-- `re.search`: try the positional matcher at every start position from the
left; the leftmost success wins. -/
def searchWith (m : List Char → Option (List Char)) : List Char → Option (List Char)
  | [] => m []
  | c :: cs =>
    match m (c :: cs) with
    | some g => some g
    | none => searchWith m cs

/-- One iteration of the detector's pattern loop: search, upper-case the
group, keep it only if it passes `^[A-Z]+-?\d+$`. -/
def detTryPattern (m : List Char → Option (List Char)) (cs : List Char) :
    Option (List Char) :=
  match searchWith m cs with
  | some g =>
    if validIssue (g.map Char.toUpper) then some (g.map Char.toUpper) else none
  | none => none

/-- Embedding of `GitRepositoryDetector.extract_jira_issue` (detector.py
lines 51-73). -/
def detector_extract_jira_issue (cs : List Char) : Option (List Char) :=
  if cs.isEmpty then none
  else
    match detTryPattern detMatchTypeDash cs with
    | some u => some u
    | none =>
      match detTryPattern detMatchDash cs with
      | some u => some u
      | none =>
        match detTryPattern detMatchTypePlain cs with
        | some u => some u
        | none => detTryPattern detMatchPlain cs

/-! ### Status rules engine (`StatusManager`, status_manager.py)

The tracker client is a record of response functions (`get_issue`,
`transition_issue`); every entry point is instrumented with the list of
tracker calls it makes, so that "no transition was invoked" is a statement
about the trace.  The loaded `status_automation` document is modelled in
the shape the code reads: a top-level `enabled` flag, an
`auto_revert_on_session_end` flag, and one optional per-event rule with
`enabled` / `from_status` / `to_status` (a missing rule behaves like the
source's `{}` default: its `enabled` lookup yields false). -/

/-- The slice of a fetched issue the status manager reads. -/
structure IssueInfo where
  status : String
deriving DecidableEq

/-- Remote tracker responses: `get_issue` and `transition_issue` of
`JiraClient`, as response functions. -/
structure TrackerClient where
  get_issue : String → Option IssueInfo
  transition_issue : String → String → Bool

/-- A tracker call made by the status manager or the monitor. -/
inductive JCall where
  | getIssue (key : String)
  | transition (key target : String)
  | addComment (key body : String)
deriving DecidableEq

/-- One per-event rule of the `status_automation` document. -/
structure StatusRule where
  enabled : Bool := false
  from_status : List String := []
  to_status : Option String := none
deriving DecidableEq

/-- The loaded `status_automation` document. -/
structure StatusAutomation where
  enabled : Bool := false
  auto_revert_on_session_end : Bool := false
  on_work_start_rule : Option StatusRule := none
  on_first_commit_rule : Option StatusRule := none
  on_work_complete_rule : Option StatusRule := none
deriving DecidableEq

/-- The status manager's state: loaded rules plus the optional client. -/
structure StatusManager where
  rules : StatusAutomation
  jira_client : Option TrackerClient

/-- Embedding of `StatusManager._apply_status_rule` (status_manager.py lines
98-134): fetch the issue; fail if absent; fail if the `from_status` list is
non-empty (truthy) and does not contain the current status; fail if
`to_status` is missing or empty (falsy); otherwise perform exactly one
transition and return its result.  Exceptions are caught in the source and
produce false; the embedding is total. -/
def apply_status_rule (client : TrackerClient) (issue_key : String)
    (rule : StatusRule) : Bool × List JCall :=
  match client.get_issue issue_key with
  | none => (false, [JCall.getIssue issue_key])
  | some info =>
    if rule.from_status ≠ [] ∧ info.status ∉ rule.from_status then
      (false, [JCall.getIssue issue_key])
    else
      match rule.to_status with
      | none => (false, [JCall.getIssue issue_key])
      | some t =>
        if t = "" then (false, [JCall.getIssue issue_key])
        else (client.transition_issue issue_key t,
              [JCall.getIssue issue_key, JCall.transition issue_key t])

/-- Embedding of `StatusManager.on_work_start` (status_manager.py lines
60-69). -/
def StatusManager.on_work_start (sm : StatusManager) (issue_key : String) :
    Bool × List JCall :=
  if sm.rules.enabled = false then (false, [])
  else
    match sm.jira_client with
    | none => (false, [])
    | some client =>
      match sm.rules.on_work_start_rule with
      | none => (false, [])
      | some rule =>
        if rule.enabled = false then (false, [])
        else apply_status_rule client issue_key rule

/-- Embedding of `StatusManager.on_first_commit` (status_manager.py lines
71-85); the rule's comment templating touches a field `_apply_status_rule`
never reads, so it does not appear here. -/
def StatusManager.on_first_commit (sm : StatusManager) (issue_key : String)
    (commit_message : String) : Bool × List JCall :=
  if sm.rules.enabled = false then (false, [])
  else
    match sm.jira_client with
    | none => (false, [])
    | some client =>
      match sm.rules.on_first_commit_rule with
      | none => (false, [])
      | some rule =>
        if rule.enabled = false then (false, [])
        else apply_status_rule client issue_key rule

/-- Embedding of `StatusManager.on_work_complete` (status_manager.py lines
87-96). -/
def StatusManager.on_work_complete (sm : StatusManager) (issue_key : String) :
    Bool × List JCall :=
  if sm.rules.enabled = false then (false, [])
  else
    match sm.jira_client with
    | none => (false, [])
    | some client =>
      match sm.rules.on_work_complete_rule with
      | none => (false, [])
      | some rule =>
        if rule.enabled = false then (false, [])
        else apply_status_rule client issue_key rule

/-- Embedding of `StatusManager.on_session_end` (status_manager.py lines
136-172): gated on `enabled`, the client, and `auto_revert_on_session_end`;
fetch the issue; if the current status already equals the original one,
succeed without transitioning; otherwise transition back to the original
status and return that result. -/
def StatusManager.on_session_end (sm : StatusManager) (issue_key : String)
    (original_status : String) : Bool × List JCall :=
  if sm.rules.enabled = false then (false, [])
  else
    match sm.jira_client with
    | none => (false, [])
    | some client =>
      if sm.rules.auto_revert_on_session_end = false then (false, [])
      else
        match client.get_issue issue_key with
        | none => (false, [JCall.getIssue issue_key])
        | some info =>
          if info.status = original_status then (true, [JCall.getIssue issue_key])
          else (client.transition_issue issue_key original_status,
                [JCall.getIssue issue_key,
                 JCall.transition issue_key original_status])

/-- Whether a tracker call is a workflow transition. -/
def JCall.is_transition : JCall → Bool
  | JCall.transition _ _ => true
  | _ => false

/-! ### Persistence store and session manager
(`DatabaseManager`, models.py; `DevPeaceActivityMonitor`, activity_monitor.py)

The work_sessions table is a list of rows (newest first: an insert
prepends); the repositories table is a path-to-id association list; the
monitor's in-memory `active_sessions` dict is a path-to-session-id
association list.  Timestamps are naturals (seconds); `total_minutes` is
`int((now - start).total_seconds() / 60)`, i.e. truncated division, which
on runs with nondecreasing timestamps is floor division.  Activity rows,
Jira status columns and tracker side-effects do not influence the session
rows and are not part of this machine. -/

/-- A row of the `work_sessions` table. -/
structure Session where
  id : Nat
  repository_id : Nat
  branch_name : String
  jira_issue : Option String
  start_time : Nat
  end_time : Option Nat
  total_minutes : Int
  is_active : Bool
  status : String
deriving DecidableEq

/-- The store: repositories (path, id) and work sessions, with the
autoincrement counters. -/
structure DB where
  repos : List (String × Nat)
  next_repo_id : Nat
  sessions : List Session
  next_session_id : Nat
deriving DecidableEq

/-- `DatabaseManager.get_repository_by_path` (models.py lines 213-229),
reduced to the repository id. -/
def get_repository_by_path (db : DB) (path : String) : Option Nat :=
  (db.repos.find? (fun r => decide (r.1 = path))).map (fun r => r.2)

/-- `DatabaseManager.add_repository` (models.py lines 203-211). -/
def add_repository (db : DB) (path : String) : DB × Nat :=
  ({ db with repos := (path, db.next_repo_id) :: db.repos,
             next_repo_id := db.next_repo_id + 1 }, db.next_repo_id)

/-- `DatabaseManager.start_work_session` (models.py lines 231-242): insert a
new active row; the Jira status columns are not modelled. -/
def start_work_session (db : DB) (rid : Nat) (branch : String)
    (issue : Option String) (t : Nat) : DB × Nat :=
  ({ db with
      sessions :=
        { id := db.next_session_id, repository_id := rid, branch_name := branch,
          jira_issue := issue, start_time := t, end_time := none,
          total_minutes := 0, is_active := true, status := "active" } :: db.sessions,
      next_session_id := db.next_session_id + 1 }, db.next_session_id)

/-- The row update `end_work_session` performs on the selected session:
`end_time = now`, `total_minutes = int((now - start)/60)` (Python `int()`
truncates toward zero: `Int.tdiv`), `is_active = 0`, `status = completed`. -/
def end_update (sid : Nat) (t : Nat) (s : Session) : Session :=
  if s.id = sid then
    { s with end_time := some t,
             total_minutes := ((t : Int) - (s.start_time : Int)).tdiv 60,
             is_active := false, status := "completed" }
  else s

/-- `DatabaseManager.end_work_session` (models.py lines 281-303): if the row
exists, apply `end_update` to it and report success. -/
def end_work_session (db : DB) (sid : Nat) (t : Nat) : DB × Bool :=
  if (db.sessions.find? (fun s => decide (s.id = sid))).isSome then
    ({ db with sessions := db.sessions.map (end_update sid t) }, true)
  else (db, false)

/-- `DatabaseManager.get_active_session_for_repo` (models.py lines 305-334):
`WHERE repository_id = ? AND is_active = 1 ORDER BY start_time DESC LIMIT 1`.
Rows are stored newest first, so on runs with nondecreasing timestamps the
head of the filtered list is the row with maximal `start_time`. -/
def get_active_session_for_repo (db : DB) (rid : Nat) : Option Session :=
  (db.sessions.filter (fun s => decide (s.repository_id = rid ∧ s.is_active = true))).head?

/-- The monitor's in-memory `active_sessions` map (repo path → session id). -/
structure Monitor where
  active_sessions : List (String × Nat)
deriving DecidableEq

/-- Dictionary lookup. -/
def mapLookup (m : List (String × Nat)) (p : String) : Option Nat :=
  (m.find? (fun e => decide (e.1 = p))).map (fun e => e.2)

/-- Dictionary assignment `m[p] = v`. -/
def mapSet (m : List (String × Nat)) (p : String) (v : Nat) : List (String × Nat) :=
  (p, v) :: m.filter (fun e => decide (e.1 ≠ p))

/-- Dictionary deletion `del m[p]`. -/
def mapRemove (m : List (String × Nat)) (p : String) : List (String × Nat) :=
  m.filter (fun e => decide (e.1 ≠ p))

/-- Combined state of the store and the monitor. -/
structure MonState where
  db : DB
  mon : Monitor
deriving DecidableEq

/-- The filesystem-driven events the session manager processes. -/
inductive MonEvent where
  | repoEntry (path branch : String) (issue : Option String)
  | branchChange (path new_branch : String) (issue : Option String)
  | fileModified (path : String) (current_branch : Option String)
  | commitSeen (path : String)
  | sessionEnd (path : String)
deriving DecidableEq

/-- Common tail of `_handle_repository_entry` and `_handle_branch_change`:
start a session and point the in-memory map at it. -/
def open_session (st : MonState) (path : String) (rid : Nat) (branch : String)
    (issue : Option String) (t : Nat) : MonState :=
  let r := start_work_session st.db rid branch issue t
  { db := r.1, mon := ⟨mapSet st.mon.active_sessions path r.2⟩ }

/-- `DevPeaceActivityMonitor._handle_repository_entry` (activity_monitor.py
lines 157-232): look up or create the repository; if an active session on
the same branch exists, keep it (updating the map); if on another branch,
end it and open a new one; otherwise open a new one.  Status automation and
activity rows do not touch the session columns modelled here. -/
def handle_repo_entry (st : MonState) (path branch : String)
    (issue : Option String) (t : Nat) : MonState :=
  let pr := match get_repository_by_path st.db path with
    | some rid => (st.db, rid)
    | none => add_repository st.db path
  match get_active_session_for_repo pr.1 pr.2 with
  | some ex =>
    if ex.branch_name = branch then
      { db := pr.1, mon := ⟨mapSet st.mon.active_sessions path ex.id⟩ }
    else
      open_session { db := (end_work_session pr.1 ex.id t).1, mon := st.mon }
        path pr.2 branch issue t
  | none => open_session { db := pr.1, mon := st.mon } path pr.2 branch issue t

/-- `DevPeaceActivityMonitor._handle_branch_change` (activity_monitor.py
lines 234-303): unknown repository → return; otherwise end the active
session (if any) and open a new one on the new branch. -/
def handle_branch_change (st : MonState) (path new_branch : String)
    (issue : Option String) (t : Nat) : MonState :=
  match get_repository_by_path st.db path with
  | none => st
  | some rid =>
    let db1 := match get_active_session_for_repo st.db rid with
      | some ex => (end_work_session st.db ex.id t).1
      | none => st.db
    open_session { db := db1, mon := st.mon } path rid new_branch issue t

/-- `DevPeaceActivityMonitor._handle_file_modification` together with
`_check_branch_change_on_activity` (activity_monitor.py lines 305-361): on
any activity, if the repository's current branch differs from the active
session's branch, process it as a branch change (the issue is derived with
the detector's extractor); recording the file_modified activity row leaves
the session rows unchanged. -/
def handle_file_modified (st : MonState) (path : String) (cur : Option String)
    (t : Nat) : MonState :=
  match cur with
  | none => st
  | some cb =>
    match mapLookup st.mon.active_sessions path with
    | none => st
    | some _ =>
      match get_repository_by_path st.db path with
      | none => st
      | some rid =>
        match get_active_session_for_repo st.db rid with
        | none => st
        | some s =>
          if s.branch_name ≠ cb then
            handle_branch_change st path cb
              ((detector_extract_jira_issue cb.data).map (fun l => String.mk l)) t
          else st

/-- `DevPeaceActivityMonitor.force_end_session` / per-session shutdown
(activity_monitor.py lines 119-136 and 464-471): end the mapped session and
drop the map entry. -/
def handle_session_end (st : MonState) (path : String) (t : Nat) : MonState :=
  match mapLookup st.mon.active_sessions path with
  | none => st
  | some sid =>
    { db := (end_work_session st.db sid t).1,
      mon := ⟨mapRemove st.mon.active_sessions path⟩ }

/-- One step of the session manager: commit events do not change session
rows (`_handle_commit_detection` only records activities and tracker
side-effects). -/
def monitor_step (st : MonState) (e : MonEvent × Nat) : MonState :=
  match e.1 with
  | MonEvent.repoEntry p b i => handle_repo_entry st p b i e.2
  | MonEvent.branchChange p nb i => handle_branch_change st p nb i e.2
  | MonEvent.fileModified p cb => handle_file_modified st p cb e.2
  | MonEvent.commitSeen _ => st
  | MonEvent.sessionEnd p => handle_session_end st p e.2

/-- The empty initial state. -/
def init_state : MonState := ⟨⟨[], 0, [], 0⟩, ⟨[]⟩⟩

/-- Run the session manager over a sequence of timed events. -/
def monitor_run (evs : List (MonEvent × Nat)) : MonState :=
  evs.foldl monitor_step init_state

/-- Number of active sessions of one repository (invariant I1 counts this). -/
def activeCount (db : DB) (rid : Nat) : Nat :=
  db.sessions.countP (fun s => decide (s.repository_id = rid ∧ s.is_active = true))

/-- Timestamps along an event list are nondecreasing, starting at `t0`. -/
def monoTimes : Nat → List (MonEvent × Nat) → Bool
  | _, [] => true
  | t0, e :: rest => decide (t0 ≤ e.2) && monoTimes e.2 rest

/-! ### Commit detection and deduplication
(`GitActivityMonitor._handle_commit_detection`, detector.py lines 239-303,
and `DevPeaceActivityMonitor._handle_commit_detection`). -/

/-- `parts[1]` of Python's `line.split(' ', 2)`: the characters between the
first space and the following space (or the end); `None` when the line has
no space (fewer than two parts). -/
def secondSplitPart (cs : List Char) : Option (List Char) :=
  match cs.dropWhile (fun c => decide (c ≠ ' ')) with
  | _ :: rest => some (rest.takeWhile (fun c => decide (c ≠ ' ')))
  | [] => none

/-- `GitActivityMonitor._get_latest_commit_hash` (detector.py lines
279-298) applied to the lines of `.git/logs/HEAD`: strip the last line,
split it on spaces, return the second field. -/
def latestCommitHash (file_lines : List String) : Option String :=
  match file_lines.getLast? with
  | none => none
  | some last =>
    match secondSplitPart last.trim.data with
    | none => none
    | some h => some (String.mk h)

/-- A delivery of a `.git/logs/HEAD` modification event: the repository
root, the ref-log lines at read time, and the monitor's active session for
that root (if any) at that moment. -/
structure CommitEvent where
  root : String
  file_lines : List String
  session : Option Nat
deriving DecidableEq

/-- State of commit detection: the detector's per-root `git_operations`
dedupe set (root, commit id), the emitted commit signals, and the commit
activity rows the monitor recorded (root, session id, commit id). -/
structure CommitState where
  reported : List (String × String)
  emitted : List (String × String)
  activities : List (String × Nat × String)
deriving DecidableEq

/-- One delivery: read the tail commit id (`if not commit_hash: return`
drops missing and empty ids), dedupe against `git_operations`, and on a new
id emit the signal; the monitor then records one commit activity when the
root has an active session. -/
def commit_step (st : CommitState) (e : CommitEvent) : CommitState :=
  match latestCommitHash e.file_lines with
  | none => st
  | some h =>
    if h = "" then st
    else if (e.root, h) ∈ st.reported then st
    else
      { reported := (e.root, h) :: st.reported
        emitted := (e.root, h) :: st.emitted
        activities :=
          match e.session with
          | some sid => (e.root, sid, h) :: st.activities
          | none => st.activities }

/-- Run commit detection from the empty state. -/
def commit_run (evs : List CommitEvent) : CommitState :=
  evs.foldl commit_step ⟨[], [], []⟩

/-- How many commit signals were emitted for a given root and commit id. -/
def emittedCount (st : CommitState) (r h : String) : Nat :=
  st.emitted.countP (fun p => decide (p.1 = r ∧ p.2 = h))

/-- How many commit activities were recorded for a given root and commit id. -/
def activityCount (st : CommitState) (r h : String) : Nat :=
  st.activities.countP (fun a => decide (a.1 = r ∧ a.2.2 = h))

/-! ### Commit comments (`DevPeaceActivityMonitor._handle_commit_detection`,
activity_monitor.py lines 363-415). -/

/-- Python's `message.split('\n')`. -/
def splitOnNl : List Char → List (List Char)
  | [] => [[]]
  | c :: rest =>
    if c = '\n' then [] :: splitOnNl rest
    else
      match splitOnNl rest with
      | h :: t => (c :: h) :: t
      | [] => [[c]]

/-- `len(commit_message.split('\n'))`. -/
def linesCount (m : String) : Nat := (splitOnNl m.data).length

/-- The posted comment body
`*Commit:* {hash[:8]}\n*Data:* {now}\n*Mensagem:* {message}`. -/
def comment_body (h nowStr m : String) : String :=
  "*Commit:* " ++ h.take 8 ++ "\n*Data:* " ++ nowStr ++ "\n*Mensagem:* " ++ m

/-- The comment block of `_handle_commit_detection`: post one comment iff
the message is truthy and has more lines than `commit_comment_threshold`,
the session lookup chain succeeds with an issue, and the client exists
(a missing repository raises AttributeError, caught by the handler). -/
def comment_calls (db : DB) (sm : StatusManager) (threshold : Int)
    (path hash : String) (msg : Option String) (nowStr : String) : List JCall :=
  let cond := match msg with
    | none => false
    | some m => decide (m ≠ "") && decide ((linesCount m : Int) > threshold)
  if cond then
    match get_repository_by_path db path with
    | none => []
    | some rid =>
      match get_active_session_for_repo db rid with
      | some s =>
        match s.jira_issue, sm.jira_client with
        | some k, some _ =>
          [JCall.addComment k (comment_body hash nowStr (msg.getD ""))]
        | _, _ => []
      | none => []
  else []

/-- `DevPeaceActivityMonitor._handle_commit_detection` (activity_monitor.py
lines 363-415), instrumented with its tracker calls: record the activity
(not modelled), fire `on_first_commit` once per session (a missing
repository aborts the handler via the caught AttributeError, after the
first-commit set was already updated), then the comment block.  Returns the
updated first-commit set and the tracker calls. -/
def handle_commit_detection (db : DB) (mon : Monitor) (first_commits : List Nat)
    (sm : StatusManager) (threshold : Int) (path hash : String)
    (msg : Option String) (nowStr : String) : List Nat × List JCall :=
  match mapLookup mon.active_sessions path with
  | none => (first_commits, [])
  | some sid =>
    if sid ∉ first_commits then
      match get_repository_by_path db path with
      | none => (sid :: first_commits, [])
      | some rid =>
        let fcCalls :=
          match get_active_session_for_repo db rid with
          | some s =>
            match s.jira_issue with
            | some k => (StatusManager.on_first_commit sm k (msg.getD "")).2
            | none => []
          | none => []
        (sid :: first_commits,
         fcCalls ++ comment_calls db sm threshold path hash msg nowStr)
    else
      (first_commits, comment_calls db sm threshold path hash msg nowStr)

/-- Structural invariants of the store: session ids are below the
autoincrement counter and pairwise distinct; repository paths and ids are
pairwise distinct and ids below their counter; every repository has at most
one active session (invariant I1). -/
structure DBInv (db : DB) : Prop where
  sess_bound : ∀ s ∈ db.sessions, s.id < db.next_session_id
  sess_nodup : db.sessions.Pairwise (fun a b => a.id ≠ b.id)
  repo_bound : ∀ r ∈ db.repos, r.2 < db.next_repo_id
  repo_nodup : db.repos.Pairwise (fun a b => a.1 ≠ b.1 ∧ a.2 ≠ b.2)
  i1 : ∀ rid, activeCount db rid ≤ 1

/-- Every in-memory `active_sessions` entry points at an existing active
session of the repository registered under the entry's path. -/
def MapOk (st : MonState) : Prop :=
  ∀ p sid, mapLookup st.mon.active_sessions p = some sid →
    ∃ s ∈ st.db.sessions, s.id = sid ∧ s.is_active = true ∧
      get_repository_by_path st.db p = some s.repository_id

/-- The reachable-state invariant of the session manager. -/
structure InvC (st : MonState) : Prop where
  dbi : DBInv st.db
  map_ok : MapOk st

/-- A completed session row carries an `end_time` no earlier than its
`start_time`, and its `total_minutes` is the floor of the elapsed seconds
over 60, computed from those two instants. -/
def SessionClosed (s : Session) : Prop :=
  ∃ e, s.end_time = some e ∧ s.start_time ≤ e ∧
    s.total_minutes = (((e - s.start_time) / 60 : Nat) : Int)

/-- Time-dependent invariants (I2): along a run whose event timestamps are
bounded by `T`, every session started no later than `T`, and every
completed session's duration columns satisfy `SessionClosed`. -/
structure TimeInv (T : Nat) (st : MonState) : Prop where
  start_le : ∀ s ∈ st.db.sessions, s.start_time ≤ T
  completed_ok : ∀ s ∈ st.db.sessions, s.is_active = false → SessionClosed s

/-! ## Theorems -/

/-! ### Characters: arithmetic characterization of the ASCII classes -/

theorem char_eq_iff_toNat {c d : Char} : c = d ↔ c.toNat = d.toNat := by
  constructor
  · intro h; rw [h]
  · intro h
    apply Char.ext
    apply UInt32.eq_of_toBitVec_eq
    apply BitVec.eq_of_toNat_eq
    exact h

theorem char_isLower_iff {c : Char} : c.isLower = true ↔ 97 ≤ c.toNat ∧ c.toNat ≤ 122 := by
  simp [Char.isLower, Char.toNat, UInt32.le_def, BitVec.le_def, UInt32.toNat]

theorem char_isUpper_iff {c : Char} : c.isUpper = true ↔ 65 ≤ c.toNat ∧ c.toNat ≤ 90 := by
  simp [Char.isUpper, Char.toNat, UInt32.le_def, BitVec.le_def, UInt32.toNat]

theorem char_isDigit_iff {c : Char} : c.isDigit = true ↔ 48 ≤ c.toNat ∧ c.toNat ≤ 57 := by
  simp [Char.isDigit, Char.toNat, UInt32.le_def, BitVec.le_def, UInt32.toNat]

theorem char_ofNat_toNat {n : Nat} (h : n < 55296) : (Char.ofNat n).toNat = n := by
  rw [Char.ofNat, dif_pos (Or.inl (by omega))]
  rfl

theorem toUpper_toNat (c : Char) :
    (c.toUpper).toNat = if 97 ≤ c.toNat ∧ c.toNat ≤ 122 then c.toNat - 32 else c.toNat := by
  rw [Char.toUpper]
  split
  · rename_i h
    rw [char_ofNat_toNat (by omega)]
  · rfl

theorem toUpper_isAlpha (c : Char) : (c.toUpper).isAlpha = c.isAlpha := by
  have h := toUpper_toNat c
  apply Bool.eq_iff_iff.mpr
  simp only [Char.isAlpha, Bool.or_eq_true, char_isUpper_iff, char_isLower_iff, h]
  split_ifs <;> omega

theorem toUpper_isDigit (c : Char) : (c.toUpper).isDigit = c.isDigit := by
  have h := toUpper_toNat c
  apply Bool.eq_iff_iff.mpr
  simp only [char_isDigit_iff, h]
  split_ifs <;> omega

theorem toUpper_eq_special (c d : Char) (h1 : ¬(65 ≤ d.toNat ∧ d.toNat ≤ 90))
    (h2 : ¬(97 ≤ d.toNat ∧ d.toNat ≤ 122)) : (c.toUpper = d) ↔ (c = d) := by
  rw [char_eq_iff_toNat, char_eq_iff_toNat, toUpper_toNat]
  split_ifs <;> omega

theorem toUpper_idem (c : Char) : c.toUpper.toUpper = c.toUpper := by
  rw [char_eq_iff_toNat]
  simp only [toUpper_toNat]
  split_ifs <;> omega

theorem toUpper_isUpper_of_isAlpha (c : Char) (h : c.isAlpha = true) :
    (c.toUpper).isUpper = true := by
  simp only [Char.isAlpha, Bool.or_eq_true, char_isUpper_iff, char_isLower_iff] at h
  rw [char_isUpper_iff, toUpper_toNat]
  split_ifs <;> omega

theorem toUpper_of_isDigit (c : Char) (h : c.isDigit = true) : c.toUpper = c := by
  rw [char_isDigit_iff] at h
  rw [char_eq_iff_toNat, toUpper_toNat, if_neg (by omega)]

theorem notSlash_toUpper (c : Char) : notSlash c.toUpper = notSlash c := by
  have h := toUpper_eq_special c '/' (by decide) (by decide)
  apply Bool.eq_iff_iff.mpr
  simp [notSlash, h]

theorem notNl_toUpper (c : Char) : notNl c.toUpper = notNl c := by
  have h := toUpper_eq_special c '\n' (by decide) (by decide)
  apply Bool.eq_iff_iff.mpr
  simp [notNl, h]

theorem isAlpha_comp_toUpper : Char.isAlpha ∘ Char.toUpper = Char.isAlpha :=
  funext toUpper_isAlpha

theorem isDigit_comp_toUpper : Char.isDigit ∘ Char.toUpper = Char.isDigit :=
  funext toUpper_isDigit

theorem notSlash_comp_toUpper : notSlash ∘ Char.toUpper = notSlash :=
  funext notSlash_toUpper

theorem notNl_comp_toUpper : notNl ∘ Char.toUpper = notNl :=
  funext notNl_toUpper

theorem mapU_idem (l : List Char) :
    (l.map Char.toUpper).map Char.toUpper = l.map Char.toUpper := by
  rw [List.map_map]
  exact List.map_congr_left (fun c _ => toUpper_idem c)

theorem takeWhile_append_not {p : Char → Bool} {ds : List Char} {c : Char}
    (hds : ∀ x ∈ ds, p x = true) (hc : p c = false) (rest : List Char) :
    (ds ++ c :: rest).takeWhile p = ds ∧ (ds ++ c :: rest).dropWhile p = c :: rest := by
  induction ds with
  | nil => simp [List.takeWhile_cons, List.dropWhile_cons, hc]
  | cons d ds ih =>
    have hd : p d = true := hds d (by simp)
    have ih2 := ih (fun x hx => hds x (by simp [hx]))
    simp [List.takeWhile_cons, List.dropWhile_cons, hd, ih2.1, ih2.2]

/-! ### Case-insensitivity: the matchers commute with ASCII upper-casing -/

theorem isEmpty_map (f : Char → Char) (l : List Char) : (l.map f).isEmpty = l.isEmpty := by
  cases l <;> rfl

theorem dollarEnd_cons (x : Char) (l : List Char) :
    dollarEnd (x :: l) = (decide (x = '\n') && l.isEmpty) := by
  apply Bool.eq_iff_iff.mpr
  simp [dollarEnd, List.isEmpty_iff]

theorem dollarEnd_map (l : List Char) : dollarEnd (l.map Char.toUpper) = dollarEnd l := by
  cases l with
  | nil => rfl
  | cons a t =>
    rw [List.map_cons, dollarEnd_cons, dollarEnd_cons, isEmpty_map]
    have key := toUpper_eq_special a '\n' (by decide) (by decide)
    by_cases ha : a = '\n'
    · rw [decide_eq_true (key.mpr ha), decide_eq_true ha]
    · rw [decide_eq_false (fun h => ha (key.mp h)), decide_eq_false ha]

theorem matchIssuePlain_map (cs : List Char) :
    matchIssuePlain (cs.map Char.toUpper) =
      (matchIssuePlain cs).map (fun p => (p.1.map Char.toUpper, p.2.map Char.toUpper)) := by
  simp only [matchIssuePlain, List.takeWhile_map, List.dropWhile_map, isAlpha_comp_toUpper,
    isDigit_comp_toUpper, isEmpty_map]
  split
  · rfl
  · simp [List.map_append]

theorem matchIssueDash_map (cs : List Char) :
    matchIssueDash (cs.map Char.toUpper) =
      (matchIssueDash cs).map (fun p => (p.1.map Char.toUpper, p.2.map Char.toUpper)) := by
  simp only [matchIssueDash, List.takeWhile_map, List.dropWhile_map, isAlpha_comp_toUpper]
  cases hdrop : cs.dropWhile Char.isAlpha with
  | nil => rfl
  | cons a t =>
    simp only [List.map_cons]
    have key := toUpper_eq_special a '-' (by decide) (by decide)
    by_cases ha : a = '-'
    · rw [if_pos (key.mpr ha), if_pos ha]
      simp only [List.takeWhile_map, List.dropWhile_map, isDigit_comp_toUpper, isEmpty_map]
      split
      · rfl
      · simp only [Option.map_some', List.map_append, List.map_cons]
        rw [show ('-' : Char).toUpper = '-' from by decide]
    · rw [if_neg (fun h => ha (key.mp h)), if_neg ha]
      rfl

theorem matchOptDescEnd_map (r : List Char) :
    matchOptDescEnd (r.map Char.toUpper) =
      (matchOptDescEnd r).map (Option.map (List.map Char.toUpper)) := by
  cases r with
  | nil => rfl
  | cons a t =>
    simp only [List.map_cons, matchOptDescEnd]
    have key := toUpper_eq_special a '-' (by decide) (by decide)
    have hdol : dollarEnd (Char.toUpper a :: t.map Char.toUpper) = dollarEnd (a :: t) := by
      rw [show (Char.toUpper a :: t.map Char.toUpper) =
            ((a :: t).map Char.toUpper) from rfl, dollarEnd_map]
    by_cases ha : a = '-'
    · rw [if_pos (key.mpr ha), if_pos ha]
      simp only [List.takeWhile_map, List.dropWhile_map, notNl_comp_toUpper, isEmpty_map,
        dollarEnd_map, hdol]
      split
      · rfl
      · split <;> rfl
    · rw [if_neg (fun h => ha (key.mp h)), if_neg ha, hdol]
      split <;> rfl

theorem matchPat1_map (cs : List Char) :
    matchPat1 (cs.map Char.toUpper) = (matchPat1 cs).map patUp := by
  simp only [matchPat1, List.takeWhile_map, List.dropWhile_map, notSlash_comp_toUpper,
    isEmpty_map]
  cases hdrop : cs.dropWhile notSlash with
  | nil => simp
  | cons a t =>
    simp only [List.map_cons]
    have key := toUpper_eq_special a '/' (by decide) (by decide)
    by_cases ha : a = '/'
    · rw [if_pos (key.mpr ha), if_pos ha]
      split
      · rfl
      · rw [matchIssueDash_map]
        cases hm : matchIssueDash t with
        | none => rfl
        | some p =>
          obtain ⟨i, r⟩ := p
          simp only [Option.map_some']
          rw [matchOptDescEnd_map]
          cases ho : matchOptDescEnd r with
          | none => rfl
          | some d => rfl
    · rw [if_neg (fun h => ha (key.mp h)), if_neg ha]
      rfl

theorem matchPat2_map (cs : List Char) :
    matchPat2 (cs.map Char.toUpper) = (matchPat2 cs).map patUp := by
  simp only [matchPat2, List.takeWhile_map, List.dropWhile_map, notSlash_comp_toUpper,
    isEmpty_map]
  cases hdrop : cs.dropWhile notSlash with
  | nil => simp
  | cons a t =>
    simp only [List.map_cons]
    have key := toUpper_eq_special a '/' (by decide) (by decide)
    by_cases ha : a = '/'
    · rw [if_pos (key.mpr ha), if_pos ha]
      split
      · rfl
      · rw [matchIssueDash_map]
        cases hm : matchIssueDash t with
        | none => rfl
        | some p =>
          obtain ⟨i, r⟩ := p
          simp only [Option.map_some', dollarEnd_map]
          split <;> rfl
    · rw [if_neg (fun h => ha (key.mp h)), if_neg ha]
      rfl

theorem matchPat3_map (cs : List Char) :
    matchPat3 (cs.map Char.toUpper) = (matchPat3 cs).map patUp := by
  simp only [matchPat3]
  rw [matchIssueDash_map]
  cases hm : matchIssueDash cs with
  | none => rfl
  | some p =>
    obtain ⟨i, r⟩ := p
    simp only [Option.map_some']
    rw [matchOptDescEnd_map]
    cases ho : matchOptDescEnd r with
    | none => rfl
    | some d => rfl

theorem matchPat4_map (cs : List Char) :
    matchPat4 (cs.map Char.toUpper) = (matchPat4 cs).map patUp := by
  simp only [matchPat4]
  rw [matchIssueDash_map]
  cases hm : matchIssueDash cs with
  | none => rfl
  | some p =>
    obtain ⟨i, r⟩ := p
    simp only [Option.map_some', dollarEnd_map]
    split <;> rfl

theorem matchPat5_map (cs : List Char) :
    matchPat5 (cs.map Char.toUpper) = (matchPat5 cs).map patUp := by
  simp only [matchPat5, List.takeWhile_map, List.dropWhile_map, notSlash_comp_toUpper,
    isEmpty_map]
  cases hdrop : cs.dropWhile notSlash with
  | nil => simp
  | cons a t =>
    simp only [List.map_cons]
    have key := toUpper_eq_special a '/' (by decide) (by decide)
    by_cases ha : a = '/'
    · rw [if_pos (key.mpr ha), if_pos ha]
      split
      · rfl
      · rw [matchIssuePlain_map]
        cases hm : matchIssuePlain t with
        | none => rfl
        | some p =>
          obtain ⟨i, r⟩ := p
          simp only [Option.map_some', dollarEnd_map]
          split <;> rfl
    · rw [if_neg (fun h => ha (key.mp h)), if_neg ha]
      rfl

theorem matchPat6_map (cs : List Char) :
    matchPat6 (cs.map Char.toUpper) = (matchPat6 cs).map patUp := by
  simp only [matchPat6]
  rw [matchIssuePlain_map]
  cases hm : matchIssuePlain cs with
  | none => rfl
  | some p =>
    obtain ⟨i, r⟩ := p
    simp only [Option.map_some', dollarEnd_map]
    split <;> rfl

theorem firstPattern_map (cs : List Char) :
    firstPattern (cs.map Char.toUpper) = (firstPattern cs).map patUp := by
  simp only [firstPattern, matchPat1_map, matchPat2_map, matchPat3_map, matchPat4_map,
    matchPat5_map, matchPat6_map]
  cases matchPat1 cs <;> cases matchPat2 cs <;> cases matchPat3 cs <;>
    cases matchPat4 cs <;> cases matchPat5 cs <;> cases matchPat6 cs <;> rfl

/-! ### Structure of successful matches and validity of extracted issues -/

theorem matchIssueDash_parts {cs i r : List Char} (h : matchIssueDash cs = some (i, r)) :
    ∃ a d, i = a ++ '-' :: d ∧ a ≠ [] ∧ (∀ x ∈ a, x.isAlpha = true) ∧ d ≠ [] ∧
      (∀ x ∈ d, x.isDigit = true) := by
  rw [matchIssueDash] at h
  split at h
  · rename_i c r2 heq
    split at h
    · rename_i hc
      split at h
      · cases h
      · rename_i hemp
        simp only [Bool.or_eq_true, List.isEmpty_iff] at hemp
        push_neg at hemp
        refine ⟨cs.takeWhile Char.isAlpha, r2.takeWhile Char.isDigit, ?_, hemp.1, ?_,
          hemp.2, ?_⟩
        · exact ((Prod.mk.injEq _ _ _ _).mp (Option.some.inj h)).1.symm
        · exact fun x hx => List.mem_takeWhile_imp hx
        · exact fun x hx => List.mem_takeWhile_imp hx
    · cases h
  · cases h

theorem validIssue_of_parts {a d : List Char} (ha : a ≠ []) (hal : ∀ x ∈ a, x.isAlpha = true)
    (hd : d ≠ []) (hdl : ∀ x ∈ d, x.isDigit = true) :
    validIssue ((a ++ '-' :: d).map Char.toUpper) = true := by
  rw [List.map_append, List.map_cons, show ('-' : Char).toUpper = '-' from by decide]
  have hA : ∀ x ∈ a.map Char.toUpper, x.isUpper = true := by
    intro x hx
    obtain ⟨y, hy, rfl⟩ := List.mem_map.mp hx
    exact toUpper_isUpper_of_isAlpha y (hal y hy)
  have hD : ∀ x ∈ d.map Char.toUpper, x.isDigit = true := by
    intro x hx
    obtain ⟨y, hy, rfl⟩ := List.mem_map.mp hx
    rw [toUpper_isDigit]
    exact hdl y hy
  have hsplit := @takeWhile_append_not Char.isUpper (a.map Char.toUpper) '-' hA
    (by decide) (d.map Char.toUpper)
  rw [validIssue]
  simp only [hsplit.1, hsplit.2, eq_self_iff_true, if_true]
  have htd : (d.map Char.toUpper).takeWhile Char.isDigit = d.map Char.toUpper :=
    List.takeWhile_eq_self_iff.mpr hD
  have hdd : (d.map Char.toUpper).dropWhile Char.isDigit = [] :=
    List.dropWhile_eq_nil_iff.mpr hD
  rw [htd, hdd]
  simp [List.isEmpty_iff, ha, hd, dollarEnd]

theorem parse_branch_fields (cs : List Char) (g : PatGroups) (hcs : cs.isEmpty = false)
    (hf : firstPattern cs = some g) :
    parse_branch cs =
      { original_name := cs
        branch_type := g.ty.map (List.map Char.toLower)
        jira_issue := some (g.issue.map Char.toUpper)
        is_valid_jira_format := validIssue (g.issue.map Char.toUpper)
        description := g.desc.map (List.map normChar) } := by
  rw [parse_branch, if_neg (by simp [hcs]), hf]

theorem extract_eq_of_firstPattern {cs : List Char} {g : PatGroups}
    (hcs : cs.isEmpty = false) (hf : firstPattern cs = some g)
    (hv : validIssue (g.issue.map Char.toUpper) = true) :
    extract_jira_issue cs = some (g.issue.map Char.toUpper) := by
  rw [extract_jira_issue, parse_branch_fields cs g hcs hf]
  simp [hv]

theorem extract_valid {cs k : List Char} (h : extract_jira_issue cs = some k) :
    validIssue k = true := by
  rw [extract_jira_issue] at h
  by_cases hv : (parse_branch cs).is_valid_jira_format = true
  · rw [if_pos hv] at h
    rw [parse_branch] at hv h
    by_cases he : cs.isEmpty = true
    · rw [if_pos he] at hv
      simp at hv
    · rw [if_neg he] at hv h
      cases hf : firstPattern cs with
      | none => rw [hf] at hv; simp at hv
      | some g =>
        rw [hf] at hv h
        have hk : some (g.issue.map Char.toUpper) = some k := h
        rw [← Option.some.inj hk]
        exact hv
  · rw [if_neg hv] at h
    cases h

theorem detTry_valid {m : List Char → Option (List Char)} {cs k : List Char}
    (h : detTryPattern m cs = some k) : validIssue k = true := by
  rw [detTryPattern] at h
  cases hs : searchWith m cs with
  | none => rw [hs] at h; cases h
  | some g =>
    rw [hs] at h
    have h2 : (if validIssue (g.map Char.toUpper) = true then
        some (g.map Char.toUpper) else (none : Option (List Char))) = some k := h
    by_cases hv : validIssue (g.map Char.toUpper) = true
    · rw [if_pos hv] at h2
      rw [← Option.some.inj h2]
      exact hv
    · rw [if_neg hv] at h2
      cases h2

theorem detector_valid {cs k : List Char} (h : detector_extract_jira_issue cs = some k) :
    validIssue k = true := by
  rw [detector_extract_jira_issue] at h
  by_cases he : cs.isEmpty = true
  · rw [if_pos he] at h; cases h
  · rw [if_neg he] at h
    cases h1 : detTryPattern detMatchTypeDash cs with
    | some u => rw [h1] at h; rw [← Option.some.inj h]; exact detTry_valid h1
    | none =>
      rw [h1] at h
      cases h2 : detTryPattern detMatchDash cs with
      | some u => rw [h2] at h; rw [← Option.some.inj h]; exact detTry_valid h2
      | none =>
        rw [h2] at h
        cases h3 : detTryPattern detMatchTypePlain cs with
        | some u => rw [h3] at h; rw [← Option.some.inj h]; exact detTry_valid h3
        | none =>
          rw [h3] at h
          exact detTry_valid h

theorem matchPat1_parts {cs : List Char} {g : PatGroups} (h : matchPat1 cs = some g) :
    ∃ u i r, cs.dropWhile notSlash = '/' :: u ∧
      (cs.takeWhile notSlash).isEmpty = false ∧
      matchIssueDash u = some (i, r) ∧ g.issue = i := by
  rw [matchPat1] at h
  split at h
  · rename_i c u heq
    split at h
    · rename_i hc
      split at h
      · cases h
      · rename_i hemp
        split at h
        · rename_i i r hm
          split at h
          · rename_i d ho
            obtain rfl := Option.some.inj h
            exact ⟨u, i, r, by rw [heq, hc], Bool.eq_false_iff.mpr hemp, hm, rfl⟩
          · cases h
        · cases h
    · cases h
  · cases h

theorem pat1_agreement {cs : List Char} {g : PatGroups} (h : matchPat1 cs = some g) :
    extract_jira_issue cs = some (g.issue.map Char.toUpper) ∧
    detector_extract_jira_issue cs = some (g.issue.map Char.toUpper) := by
  obtain ⟨u, i, r, hdrop, hne, hm, hgi⟩ := matchPat1_parts h
  obtain ⟨a, d, hi, ha, hal, hd, hdl⟩ := matchIssueDash_parts hm
  have hv : validIssue (i.map Char.toUpper) = true := by
    rw [hi]
    exact validIssue_of_parts ha hal hd hdl
  have hvg : validIssue (g.issue.map Char.toUpper) = true := by rw [hgi]; exact hv
  have hfp : firstPattern cs = some g := by rw [firstPattern, h]
  cases cs with
  | nil => simp at hdrop
  | cons x t =>
    refine ⟨extract_eq_of_firstPattern rfl hfp hvg, ?_⟩
    have hdet : detMatchTypeDash (x :: t) = some i := by
      simp [detMatchTypeDash, hdrop, hne, hm]
    have hsw : searchWith detMatchTypeDash (x :: t) = some i := by
      rw [searchWith, hdet]
    have h1 : detTryPattern detMatchTypeDash (x :: t) = some (i.map Char.toUpper) := by
      rw [detTryPattern, hsw]
      show (if validIssue (i.map Char.toUpper) = true then
          some (i.map Char.toUpper) else (none : Option (List Char))) = _
      rw [if_pos hv]
    rw [detector_extract_jira_issue, if_neg (by simp), h1, hgi]

/-! ### Description normalization and issue upper-casing in `parse_branch` -/

theorem normChar_ne (c : Char) : normChar c ≠ '-' ∧ normChar c ≠ '_' := by
  rw [normChar]
  split
  · exact ⟨by decide, by decide⟩
  · rename_i hcond
    simp only [Bool.or_eq_true, beq_iff_eq, not_or] at hcond
    exact hcond

theorem parse_branch_issue_upper {cs k : List Char}
    (h : (parse_branch cs).jira_issue = some k) : k.map Char.toUpper = k := by
  rw [parse_branch] at h
  by_cases he : cs.isEmpty = true
  · rw [if_pos he] at h
    simp at h
  · rw [if_neg he] at h
    cases hf : firstPattern cs with
    | none => rw [hf] at h; simp at h
    | some g =>
      rw [hf] at h
      have hk : some (g.issue.map Char.toUpper) = some k := h
      rw [← Option.some.inj hk]
      exact mapU_idem _

theorem parse_branch_desc_normalized {cs d : List Char}
    (h : (parse_branch cs).description = some d) : '-' ∉ d ∧ '_' ∉ d := by
  rw [parse_branch] at h
  by_cases he : cs.isEmpty = true
  · rw [if_pos he] at h
    simp at h
  · rw [if_neg he] at h
    cases hf : firstPattern cs with
    | none => rw [hf] at h; simp at h
    | some g =>
      rw [hf] at h
      have hk : g.desc.map (List.map normChar) = some d := h
      cases hdesc : g.desc with
      | none => rw [hdesc] at hk; cases hk
      | some d0 =>
        rw [hdesc] at hk
        have : d0.map normChar = d := Option.some.inj hk
        subst this
        constructor
        · intro hmem
          obtain ⟨y, -, hy⟩ := List.mem_map.mp hmem
          exact (normChar_ne y).1 hy
        · intro hmem
          obtain ⟨y, -, hy⟩ := List.mem_map.mp hmem
          exact (normChar_ne y).2 hy

theorem parse_branch_case_insensitive (cs : List Char) :
    (parse_branch (cs.map Char.toUpper)).jira_issue = (parse_branch cs).jira_issue ∧
    (parse_branch (cs.map Char.toUpper)).is_valid_jira_format =
      (parse_branch cs).is_valid_jira_format := by
  rw [parse_branch, parse_branch, firstPattern_map, isEmpty_map]
  by_cases he : cs.isEmpty = true
  · rw [if_pos he, if_pos he]
    exact ⟨rfl, rfl⟩
  · rw [if_neg he, if_neg he]
    cases hf : firstPattern cs with
    | none => exact ⟨rfl, rfl⟩
    | some g =>
      simp only [Option.map_some']
      refine ⟨?_, ?_⟩
      · show some (((g.issue.map Char.toUpper).map Char.toUpper)) =
          some (g.issue.map Char.toUpper)
        rw [mapU_idem]
      · show validIssue ((g.issue.map Char.toUpper).map Char.toUpper) =
          validIssue (g.issue.map Char.toUpper)
        rw [mapU_idem]

/-! ### Decimal numerals -/

theorem digitChar_isDigit {d : Nat} (h : d < 10) : (digitChar d).isDigit = true := by
  interval_cases d <;> decide

theorem digitChar_val {d : Nat} (h : d < 10) : (digitChar d).toNat - 48 = d := by
  interval_cases d <;> decide

theorem toDecimal_ne_nil (n : Nat) : toDecimal n ≠ [] := by
  rw [toDecimal]
  split <;> simp

theorem toDecimal_isDigit (n : Nat) : ∀ c ∈ toDecimal n, c.isDigit = true := by
  induction n using Nat.strong_induction_on with
  | _ n ih =>
    rw [toDecimal]
    split
    · intro c hc
      simp only [List.mem_singleton] at hc
      subst hc
      exact digitChar_isDigit (by omega)
    · intro c hc
      rcases List.mem_append.mp hc with h1 | h2
      · exact ih (n / 10) (Nat.div_lt_self (by omega) (by omega)) c h1
      · simp only [List.mem_singleton] at h2
        subst h2
        exact digitChar_isDigit (Nat.mod_lt _ (by omega))

theorem digitsVal_append (l1 l2 : List Char) :
    digitsVal (l1 ++ l2) = l2.foldl (fun a c => 10 * a + (c.toNat - 48)) (digitsVal l1) := by
  simp [digitsVal, List.foldl_append]

theorem digitsVal_toDecimal (n : Nat) : digitsVal (toDecimal n) = n := by
  induction n using Nat.strong_induction_on with
  | _ n ih =>
    rw [toDecimal]
    split
    · rename_i h
      simp [digitsVal, digitChar_val h]
    · rename_i h
      rw [digitsVal_append, ih (n / 10) (Nat.div_lt_self (by omega) (by omega))]
      simp [digitChar_val (Nat.mod_lt n (by omega))]
      omega

theorem not_mem_toDecimal {c : Char} (hc : c.isDigit = false) (n : Nat) :
    c ∉ toDecimal n := by
  intro hm
  have := toDecimal_isDigit n c hm
  rw [this] at hc
  cases hc

/-! ### Search lemmas for the duration parser -/

theorem head?_dropWhile_mem {p : Char → Bool} {cs : List Char} {t : Char}
    (h : (cs.dropWhile p).head? = some t) : t ∈ cs := by
  have hm : t ∈ cs.dropWhile p := by
    cases hd : cs.dropWhile p with
    | nil => simp [hd] at h
    | cons a l => simp [hd] at h; simp [hd, h]
  exact (List.dropWhile_sublist p).mem hm

theorem searchNumBefore_of_not_mem {t : Char} {cs : List Char} (h : t ∉ cs) :
    searchNumBefore t cs = none := by
  induction cs with
  | nil => rfl
  | cons c cs ih =>
    rw [searchNumBefore]
    have hne : ¬(((c :: cs).takeWhile Char.isDigit ≠ []) ∧
        ((c :: cs).dropWhile Char.isDigit).head? = some t) := by
      rintro ⟨-, h2⟩
      exact h (head?_dropWhile_mem h2)
    rw [if_neg hne]
    exact ih (fun hm => h (List.mem_cons_of_mem _ hm))

/-- Searching for `t` over a digit run followed by a non-digit, non-target
character skips past both. -/
theorem searchNumBefore_skip {t c : Char} {ds : List Char}
    (hds : ∀ x ∈ ds, x.isDigit = true) (hcd : c.isDigit = false) (hct : c ≠ t)
    (rest : List Char) :
    searchNumBefore t (ds ++ c :: rest) = searchNumBefore t rest := by
  induction ds with
  | nil =>
    rw [List.nil_append, searchNumBefore]
    have : ¬(((c :: rest).takeWhile Char.isDigit ≠ []) ∧
        ((c :: rest).dropWhile Char.isDigit).head? = some t) := by
      rintro ⟨h1, -⟩
      simp [List.takeWhile_cons, hcd] at h1
    rw [if_neg this]
  | cons d ds ih =>
    have hds2 : ∀ x ∈ ds, x.isDigit = true := fun x hx => hds x (by simp [hx])
    have hdrop := (@takeWhile_append_not Char.isDigit (d :: ds) c hds hcd rest).2
    simp only [List.cons_append] at hdrop
    rw [List.cons_append, searchNumBefore]
    have hng : ¬(((d :: (ds ++ c :: rest)).takeWhile Char.isDigit ≠ []) ∧
        ((d :: (ds ++ c :: rest)).dropWhile Char.isDigit).head? = some t) := by
      rintro ⟨-, h2⟩
      rw [hdrop] at h2
      simp at h2
      exact hct h2
    rw [if_neg hng]
    exact ih hds2

/-- Searching for `t` where the string begins with a nonempty digit run
immediately followed by `t` succeeds with the run's value. -/
theorem searchNumBefore_found {t : Char} {ds : List Char}
    (hne : ds ≠ []) (hds : ∀ x ∈ ds, x.isDigit = true) (ht : t.isDigit = false)
    (rest : List Char) :
    searchNumBefore t (ds ++ t :: rest) = some (digitsVal ds) := by
  have htw := takeWhile_append_not (p := Char.isDigit) hds ht rest
  cases ds with
  | nil => exact absurd rfl hne
  | cons d ds' =>
    rw [List.cons_append, searchNumBefore]
    rw [List.cons_append] at htw
    rw [if_pos ⟨by rw [htw.1]; simp, by rw [htw.2]; rfl⟩]
    rw [htw.1]

theorem isDigit_ne {c t : Char} (hc : c.isDigit = true) (ht : t.isDigit = false) : c ≠ t := by
  intro h
  subst h
  rw [hc] at ht
  cases ht

theorem not_mem_fmt_parts {t : Char} (ht : t.isDigit = false) {a b : Nat}
    (hth : t ≠ 'h') (hts : t ≠ ' ') (htm : t ≠ 'm') :
    t ∉ toDecimal a ++ ('h' :: ' ' :: (toDecimal b ++ ['m'])) := by
  intro hm
  rcases List.mem_append.mp hm with h1 | h2
  · exact not_mem_toDecimal ht a h1
  · rcases List.mem_cons.mp h2 with h3 | h4
    · exact hth h3
    · rcases List.mem_cons.mp h4 with h5 | h6
      · exact hts h5
      · rcases List.mem_append.mp h6 with h7 | h8
        · exact not_mem_toDecimal ht b h7
        · exact htm (List.mem_singleton.mp h8)

/-- Claim C9 core: the duration codec round-trips on positive minute counts. -/
theorem parse_format_roundtrip (n : Int) (h1 : 1 ≤ n) :
    (parse_time_spent (format_time_spent n) : Int) = n := by
  have hn0 : ¬ n ≤ 0 := by omega
  have hcast : (n.toNat : Int) = n := Int.toNat_of_nonneg (by omega)
  have hnn1 : 1 ≤ n.toNat := by omega
  rw [format_time_spent, if_neg hn0]
  have hdm := Nat.div_add_mod n.toNat 60
  by_cases hh : n.toNat / 60 > 0 ∧ n.toNat % 60 > 0
  · rw [if_pos hh]
    have hdg1 := toDecimal_isDigit (n.toNat / 60)
    have hdg2 := toDecimal_isDigit (n.toNat % 60)
    have hd : searchNumBefore 'd' (toDecimal (n.toNat / 60) ++ ('h' :: ' ' ::
        (toDecimal (n.toNat % 60) ++ ['m']))) = none :=
      searchNumBefore_of_not_mem (not_mem_fmt_parts (by decide) (by decide)
        (by decide) (by decide))
    have hsh : searchNumBefore 'h' (toDecimal (n.toNat / 60) ++ ('h' :: ' ' ::
        (toDecimal (n.toNat % 60) ++ ['m']))) = some (n.toNat / 60) := by
      rw [searchNumBefore_found (t := 'h') (toDecimal_ne_nil _) hdg1 (by decide),
        digitsVal_toDecimal]
    have hsm : searchNumBefore 'm' (toDecimal (n.toNat / 60) ++ ('h' :: ' ' ::
        (toDecimal (n.toNat % 60) ++ ['m']))) = some (n.toNat % 60) := by
      rw [searchNumBefore_skip (t := 'm') (c := 'h') hdg1 (by decide) (by decide)]
      rw [show (' ' :: (toDecimal (n.toNat % 60) ++ ['m']) :
            List Char) = [] ++ (' ' :: (toDecimal (n.toNat % 60) ++ ['m'])) by simp]
      rw [searchNumBefore_skip (t := 'm') (c := ' ') (by simp) (by decide) (by decide)]
      rw [show (toDecimal (n.toNat % 60) ++ ['m'] : List Char) =
            toDecimal (n.toNat % 60) ++ 'm' :: [] from rfl]
      rw [searchNumBefore_found (t := 'm') (toDecimal_ne_nil _) hdg2 (by decide),
        digitsVal_toDecimal]
    rw [parse_time_spent, hd, hsh, hsm]
    simp only [Option.getD_some, Option.getD_none]
    have : 0 * (8 * 60) + n.toNat / 60 * 60 + n.toNat % 60 = n.toNat := by omega
    rw [this]
    rw [max_eq_left hnn1]
    exact hcast
  · rw [if_neg hh]
    by_cases hq : n.toNat / 60 > 0
    · rw [if_pos hq]
      have hm0 : n.toNat % 60 = 0 := by omega
      have hdg1 := toDecimal_isDigit (n.toNat / 60)
      have hnotmem : ∀ t : Char, t.isDigit = false → t ≠ 'h' →
          t ∉ toDecimal (n.toNat / 60) ++ ['h'] := by
        intro t htd hth hm
        rcases List.mem_append.mp hm with h1 | h2
        · exact not_mem_toDecimal htd _ h1
        · simp only [List.mem_singleton] at h2
          exact hth h2
      have hd : searchNumBefore 'd' (toDecimal (n.toNat / 60) ++ ['h']) = none :=
        searchNumBefore_of_not_mem (hnotmem 'd' (by decide) (by decide))
      have hm : searchNumBefore 'm' (toDecimal (n.toNat / 60) ++ ['h']) = none :=
        searchNumBefore_of_not_mem (hnotmem 'm' (by decide) (by decide))
      have hsh : searchNumBefore 'h' (toDecimal (n.toNat / 60) ++ ['h']) =
          some (n.toNat / 60) := by
        rw [show (toDecimal (n.toNat / 60) ++ ['h'] : List Char) =
              toDecimal (n.toNat / 60) ++ 'h' :: [] from rfl]
        rw [searchNumBefore_found (t := 'h') (toDecimal_ne_nil _) hdg1 (by decide),
          digitsVal_toDecimal]
      rw [parse_time_spent, hd, hm, hsh]
      simp only [Option.getD_some, Option.getD_none]
      have : 0 * (8 * 60) + n.toNat / 60 * 60 + 0 = n.toNat := by omega
      rw [this, max_eq_left hnn1]
      exact hcast
    · rw [if_neg hq]
      have hmod : n.toNat % 60 = n.toNat := by omega
      have hdg2 := toDecimal_isDigit (n.toNat % 60)
      have hnotmem : ∀ t : Char, t.isDigit = false → t ≠ 'm' →
          t ∉ toDecimal (n.toNat % 60) ++ ['m'] := by
        intro t htd htm hm
        rcases List.mem_append.mp hm with h1 | h2
        · exact not_mem_toDecimal htd _ h1
        · simp only [List.mem_singleton] at h2
          exact htm h2
      have hd : searchNumBefore 'd' (toDecimal (n.toNat % 60) ++ ['m']) = none :=
        searchNumBefore_of_not_mem (hnotmem 'd' (by decide) (by decide))
      have hsh : searchNumBefore 'h' (toDecimal (n.toNat % 60) ++ ['m']) = none :=
        searchNumBefore_of_not_mem (hnotmem 'h' (by decide) (by decide))
      have hsm : searchNumBefore 'm' (toDecimal (n.toNat % 60) ++ ['m']) =
          some (n.toNat % 60) := by
        rw [show (toDecimal (n.toNat % 60) ++ ['m'] : List Char) =
              toDecimal (n.toNat % 60) ++ 'm' :: [] from rfl]
        rw [searchNumBefore_found (t := 'm') (toDecimal_ne_nil _) hdg2 (by decide),
          digitsVal_toDecimal]
      rw [parse_time_spent, hd, hsh, hsm]
      simp only [Option.getD_some, Option.getD_none]
      have : 0 * (8 * 60) + 0 * 60 + n.toNat % 60 = n.toNat := by omega
      rw [this, max_eq_left hnn1]
      exact hcast

/-- C9: for every integer n ≥ 1, `parse_time_spent (format_time_spent n) = n`:
the Jira duration codec round-trips, where `format_time_spent` renders
`h = n / 60` and `m = n % 60` omitting a zero part (`format_time_spent 0 = "1m"`),
and `parse_time_spent` sums `d` groups as 480 minutes, `h` as 60 and `m` as 1,
returning at least 1. -/
theorem C9_duration_codec_roundtrip (n : Int) (h1 : 1 ≤ n) :
    (parse_time_spent (format_time_spent n) : Int) = n :=
  parse_format_roundtrip n h1

/-- Witness for C9 at n = 125 (which formats as `2h 5m`). -/
theorem C9_duration_codec_roundtrip_witness :
    (1 : Int) ≤ 125 ∧ (parse_time_spent (format_time_spent 125) : Int) = 125 :=
  ⟨by decide, C9_duration_codec_roundtrip 125 (by decide)⟩

/-- C10: for every integer `minutes ≤ 0` (including strictly negative values),
`format_time_spent` returns the string `1m`. -/
theorem C10_format_nonpos (minutes : Int) (h : minutes ≤ 0) :
    format_time_spent minutes = ['1', 'm'] := by
  rw [format_time_spent, if_pos h]

/-- Witness for C10 at minutes = -5. -/
theorem C10_format_nonpos_witness :
    (-5 : Int) ≤ 0 ∧ format_time_spent (-5) = ['1', 'm'] :=
  ⟨by decide, C10_format_nonpos (-5) (by decide)⟩


/-! ### Claims C3 and C4 -/

/-- C3 counterexample: on the branch name `a b PROJ-1` the branch parser's
helper (`JiraBranchParser.extract_jira_issue`, anchored patterns) returns
none while the detector's `GitRepositoryDetector.extract_jira_issue`
(unanchored `re.search`) returns `PROJ-1`; the two extractions are not
equal, contrary to the claim. -/
theorem C3_counterexample :
    extract_jira_issue ("a b PROJ-1".data) = none ∧
    detector_extract_jira_issue ("a b PROJ-1".data) = some ("PROJ-1".data) ∧
    detector_extract_jira_issue ("a b PROJ-1".data) ≠
      extract_jira_issue ("a b PROJ-1".data) :=
  ⟨by decide, by decide, by decide⟩

/-- C3 (amended): both extractions return an issue only when it matches
`^[A-Z]+-?\d+$`, and they agree (both returning the upper-cased issue
group) on every branch name matched by the parser's first pattern
`type/KEY-digits(-desc)?`; but they are not equal on all branch names,
because the detector searches unanchored while the parser anchors. -/
theorem C3_extractors_validate_and_agree_on_pattern1 :
    (∀ cs k, extract_jira_issue cs = some k → validIssue k = true) ∧
    (∀ cs k, detector_extract_jira_issue cs = some k → validIssue k = true) ∧
    (∀ cs g, matchPat1 cs = some g →
      detector_extract_jira_issue cs = extract_jira_issue cs ∧
      extract_jira_issue cs = some (g.issue.map Char.toUpper)) := by
  refine ⟨fun cs k h => extract_valid h, fun cs k h => detector_valid h,
    fun cs g h => ?_⟩
  obtain ⟨he, hd⟩ := pat1_agreement h
  exact ⟨by rw [he, hd], he⟩

/-- Witness for the amended C3 on the branch `feature/PROJ-123-login`. -/
theorem C3_extractors_agree_witness :
    validIssue ("PROJ-123".data) = true ∧
    detector_extract_jira_issue ("feature/PROJ-123-login".data) =
      extract_jira_issue ("feature/PROJ-123-login".data) :=
  ⟨C3_extractors_validate_and_agree_on_pattern1.1 ("feature/PROJ-123-login".data)
      ("PROJ-123".data) (by decide),
   (C3_extractors_validate_and_agree_on_pattern1.2.2 ("feature/PROJ-123-login".data)
      ⟨some ("feature".data), "PROJ-123".data, some ("login".data)⟩ (by decide)).1⟩

/-- C4: `parse_branch` evaluates the six branch patterns top-down with the
first match filling the result (illustrated on branch names exercising the
type/issue/description, bare-issue and no-hyphen patterns); matching is
case-insensitive — upper-casing the whole branch name changes neither the
extracted issue nor its validity flag; the extracted issue is upper-cased
(it is a fixed point of ASCII upper-casing); and a trailing description has
every `-` and `_` replaced by a space, so neither character survives. -/
theorem C4_parse_branch_first_match_and_normalization :
    (∀ cs k, (parse_branch cs).jira_issue = some k → k.map Char.toUpper = k) ∧
    (∀ cs d, (parse_branch cs).description = some d → '-' ∉ d ∧ '_' ∉ d) ∧
    (∀ cs, (parse_branch (cs.map Char.toUpper)).jira_issue =
        (parse_branch cs).jira_issue ∧
      (parse_branch (cs.map Char.toUpper)).is_valid_jira_format =
        (parse_branch cs).is_valid_jira_format) ∧
    parse_branch ("feature/proj-123-fix_login-now".data) =
      { original_name := "feature/proj-123-fix_login-now".data
        branch_type := some ("feature".data)
        jira_issue := some ("PROJ-123".data)
        description := some ("fix login now".data)
        is_valid_jira_format := true } ∧
    parse_branch ("PROJ-77".data) =
      { original_name := "PROJ-77".data
        jira_issue := some ("PROJ-77".data)
        is_valid_jira_format := true } ∧
    parse_branch ("tipo/ABC123".data) =
      { original_name := "tipo/ABC123".data
        branch_type := some ("tipo".data)
        jira_issue := some ("ABC123".data)
        is_valid_jira_format := true } :=
  ⟨fun _ _ h => parse_branch_issue_upper h,
   fun _ _ h => parse_branch_desc_normalized h,
   fun cs => parse_branch_case_insensitive cs,
   by decide, by decide, by decide⟩

/-- Witness for C4 on the branch `feature/proj-123-fix_login-now`. -/
theorem C4_parse_branch_witness :
    ("PROJ-123".data).map Char.toUpper = "PROJ-123".data ∧
    ('-' ∉ "fix login now".data ∧ '_' ∉ "fix login now".data) :=
  ⟨C4_parse_branch_first_match_and_normalization.1
      ("feature/proj-123-fix_login-now".data) ("PROJ-123".data) (by decide),
   C4_parse_branch_first_match_and_normalization.2.1
      ("feature/proj-123-fix_login-now".data) ("fix login now".data) (by decide)⟩


/-! ### Claims C5 and C6 -/

/-- C5: with status automation and auto-revert both enabled (and a connected
client whose issue fetch succeeds), `on_session_end` returns true without
invoking any transition when the remote current status already equals the
recorded original status, and otherwise performs exactly one transition back
to the original status and returns that transition's result. -/
theorem C5_on_session_end_revert (sm : StatusManager) (c : TrackerClient)
    (k orig : String) (info : IssueInfo)
    (hen : sm.rules.enabled = true)
    (har : sm.rules.auto_revert_on_session_end = true)
    (hc : sm.jira_client = some c)
    (hg : c.get_issue k = some info) :
    (info.status = orig →
      StatusManager.on_session_end sm k orig = (true, [JCall.getIssue k])) ∧
    (info.status ≠ orig →
      StatusManager.on_session_end sm k orig =
        (c.transition_issue k orig,
         [JCall.getIssue k, JCall.transition k orig])) := by
  constructor
  · intro h
    simp [StatusManager.on_session_end, hen, har, hc, hg, h]
  · intro h
    simp [StatusManager.on_session_end, hen, har, hc, hg, h]

/-- Witness for C5: a client whose issue is In Progress, reverted to To Do,
and one whose issue is already To Do, left alone. -/
theorem C5_on_session_end_revert_witness :
    (StatusManager.on_session_end
      ⟨{ enabled := true, auto_revert_on_session_end := true },
       some { get_issue := fun _ => some ⟨"To Do"⟩,
              transition_issue := fun _ _ => true }⟩ "AB-1" "To Do" =
        (true, [JCall.getIssue "AB-1"])) ∧
    (StatusManager.on_session_end
      ⟨{ enabled := true, auto_revert_on_session_end := true },
       some { get_issue := fun _ => some ⟨"In Progress"⟩,
              transition_issue := fun _ _ => true }⟩ "AB-1" "To Do" =
        (true, [JCall.getIssue "AB-1", JCall.transition "AB-1" "To Do"])) :=
  ⟨(C5_on_session_end_revert
      ⟨{ enabled := true, auto_revert_on_session_end := true },
       some { get_issue := fun _ => some ⟨"To Do"⟩,
              transition_issue := fun _ _ => true }⟩
      { get_issue := fun _ => some ⟨"To Do"⟩, transition_issue := fun _ _ => true }
      "AB-1" "To Do" ⟨"To Do"⟩ rfl rfl rfl rfl).1 rfl,
   (C5_on_session_end_revert
      ⟨{ enabled := true, auto_revert_on_session_end := true },
       some { get_issue := fun _ => some ⟨"In Progress"⟩,
              transition_issue := fun _ _ => true }⟩
      { get_issue := fun _ => some ⟨"In Progress"⟩, transition_issue := fun _ _ => true }
      "AB-1" "To Do" ⟨"In Progress"⟩ rfl rfl rfl rfl).2 (by decide)⟩

/-- C6 counterexample: with automation enabled and an `on_work_start` rule
whose `from_status` list is empty, the current remote status `Weird` is not
in the `from` list, yet `on_work_start` performs a transition and returns
its (true) result instead of returning false: Python's truthiness check
`if from_statuses and current_status not in from_statuses` skips the guard
entirely for an empty list. -/
theorem C6_counterexample :
    StatusManager.on_work_start
      ⟨{ enabled := true,
         on_work_start_rule := some { enabled := true, from_status := [],
                                      to_status := some "Done" } },
       some { get_issue := fun _ => some ⟨"Weird"⟩,
              transition_issue := fun _ _ => true }⟩ "AB-1" =
      (true, [JCall.getIssue "AB-1", JCall.transition "AB-1" "Done"]) ∧
    "Weird" ∉ ([] : List String) :=
  ⟨rfl, by decide⟩

/-- C6 (amended): the entry points return false with an empty tracker trace
when the top-level enabled flag is false; and when the matching rule's
`from_status` list is non-empty and the current remote status is not in it,
the rule application returns false having made no transition call (only the
issue fetch) — in particular `on_work_start` does so under its gates.  The
source catches all exceptions inside `_apply_status_rule`, so the embedding
is a total function and no error escapes. -/
theorem C6_disabled_or_status_not_in_from (sm : StatusManager) :
    (∀ k m : String, sm.rules.enabled = false →
      StatusManager.on_work_start sm k = (false, []) ∧
      StatusManager.on_first_commit sm k m = (false, []) ∧
      StatusManager.on_work_complete sm k = (false, [])) ∧
    (∀ (c : TrackerClient) (k : String) (r : StatusRule) (info : IssueInfo),
      c.get_issue k = some info → r.from_status ≠ [] →
      info.status ∉ r.from_status →
      apply_status_rule c k r = (false, [JCall.getIssue k])) ∧
    (∀ (c : TrackerClient) (k : String) (r : StatusRule) (info : IssueInfo),
      sm.rules.enabled = true → sm.jira_client = some c →
      sm.rules.on_work_start_rule = some r → r.enabled = true →
      c.get_issue k = some info → r.from_status ≠ [] →
      info.status ∉ r.from_status →
      StatusManager.on_work_start sm k = (false, [JCall.getIssue k])) := by
  have happly : ∀ (c : TrackerClient) (k : String) (r : StatusRule) (info : IssueInfo),
      c.get_issue k = some info → r.from_status ≠ [] →
      info.status ∉ r.from_status →
      apply_status_rule c k r = (false, [JCall.getIssue k]) := by
    intro c k r info hg hne hni
    rw [apply_status_rule, hg]
    show (if r.from_status ≠ [] ∧ info.status ∉ r.from_status then
        (false, [JCall.getIssue k])
      else match r.to_status with
        | none => (false, [JCall.getIssue k])
        | some t =>
          if t = "" then (false, [JCall.getIssue k])
          else (c.transition_issue k t,
                [JCall.getIssue k, JCall.transition k t])) = _
    rw [if_pos ⟨hne, hni⟩]
  refine ⟨?_, happly, ?_⟩
  · intro k m hdis
    refine ⟨?_, ?_, ?_⟩ <;>
      simp [StatusManager.on_work_start, StatusManager.on_first_commit,
        StatusManager.on_work_complete, hdis]
  · intro c k r info hen hc hr hre hg hne hni
    rw [StatusManager.on_work_start, if_neg (by simp [hen]), hc]
    show (match sm.rules.on_work_start_rule with
      | none => ((false : Bool), ([] : List JCall))
      | some rule =>
        if rule.enabled = false then (false, [])
        else apply_status_rule c k rule) = _
    rw [hr]
    show (if r.enabled = false then ((false : Bool), ([] : List JCall))
      else apply_status_rule c k r) = _
    rw [if_neg (by simp [hre])]
    exact happly c k r info hg hne hni

/-- Witness for the amended C6: a disabled manager is a no-op, and a rule
with `from_status = [To Do]` against current status `Blocked` yields false
with only the issue fetch in the trace. -/
theorem C6_disabled_or_status_not_in_from_witness :
    StatusManager.on_work_start ⟨{ enabled := false }, none⟩ "AB-1" = (false, []) ∧
    apply_status_rule
      { get_issue := fun _ => some ⟨"Blocked"⟩, transition_issue := fun _ _ => true }
      "AB-1" { enabled := true, from_status := ["To Do"], to_status := some "Done" } =
      (false, [JCall.getIssue "AB-1"]) :=
  ⟨((C6_disabled_or_status_not_in_from ⟨{ enabled := false }, none⟩).1
      "AB-1" "" rfl).1,
   (C6_disabled_or_status_not_in_from ⟨{ enabled := false }, none⟩).2.1
      { get_issue := fun _ => some ⟨"Blocked"⟩, transition_issue := fun _ _ => true }
      "AB-1" { enabled := true, from_status := ["To Do"], to_status := some "Done" }
      ⟨"Blocked"⟩ rfl (by decide) (by decide)⟩


/-! ### Claim C7: idempotent commit detection -/

theorem commit_step_cases (st : CommitState) (e : CommitEvent) :
    commit_step st e = st ∨
    ∃ hh, hh ≠ "" ∧ (e.root, hh) ∉ st.reported ∧
      commit_step st e =
        { reported := (e.root, hh) :: st.reported
          emitted := (e.root, hh) :: st.emitted
          activities :=
            match e.session with
            | some sid => (e.root, sid, hh) :: st.activities
            | none => st.activities } := by
  unfold commit_step
  split
  · left; rfl
  · split
    · left; rfl
    · split
      · left; rfl
      · rename_i hh hlh h1 h2
        right
        exact ⟨hh, h1, h2, rfl⟩

theorem commit_step_inv (r h : String) (st : CommitState) (e : CommitEvent)
    (H1 : (r, h) ∈ st.reported ∨ (emittedCount st r h = 0 ∧ activityCount st r h = 0))
    (H2 : emittedCount st r h ≤ 1) (H3 : activityCount st r h ≤ 1) :
    ((r, h) ∈ (commit_step st e).reported ∨
      (emittedCount (commit_step st e) r h = 0 ∧
       activityCount (commit_step st e) r h = 0)) ∧
    emittedCount (commit_step st e) r h ≤ 1 ∧
    activityCount (commit_step st e) r h ≤ 1 := by
  rcases commit_step_cases st e with heq | ⟨hh, -, hnew, heq⟩
  · rw [heq]
    exact ⟨H1, H2, H3⟩
  · by_cases hsame : (r, h) = (e.root, hh)
    · have hr1 : e.root = r := by injection hsame with a b; exact a.symm
      have hh1 : hh = h := by injection hsame with a b; exact b.symm
      have hnew2 : (r, h) ∉ st.reported := by rw [← hr1, ← hh1]; exact hnew
      have hzero : emittedCount st r h = 0 ∧ activityCount st r h = 0 := by
        rcases H1 with hmem | hz
        · exact absurd hmem hnew2
        · exact hz
      have hem : emittedCount (commit_step st e) r h = 1 := by
        rw [heq, emittedCount, List.countP_cons_of_pos _ _ (by simp [hr1, hh1])]
        have hz : emittedCount st r h = 0 := hzero.1
        rw [emittedCount] at hz
        omega
      have hac : activityCount (commit_step st e) r h ≤ 1 := by
        rw [heq, activityCount]
        have hz : st.activities.countP
            (fun a => decide (a.1 = r ∧ a.2.2 = h)) = 0 := hzero.2
        cases e.session with
        | none => simp only []; omega
        | some sid =>
          simp only []
          rw [List.countP_cons_of_pos _ _ (by simp [hr1, hh1])]
          omega
      refine ⟨Or.inl ?_, by omega, hac⟩
      rw [heq, ← hr1, ← hh1]
      exact List.mem_cons_self _ _
    · have hpe : ¬(e.root = r ∧ hh = h) := by
        rintro ⟨h1, h2⟩
        exact hsame (by rw [h1, h2])
      have hem : emittedCount (commit_step st e) r h = emittedCount st r h := by
        rw [heq, emittedCount, emittedCount, List.countP_cons_of_neg]
        simp only [decide_eq_true_eq]
        exact hpe
      have hac : activityCount (commit_step st e) r h = activityCount st r h := by
        rw [heq, activityCount, activityCount]
        cases e.session with
        | none => rfl
        | some sid =>
          rw [List.countP_cons_of_neg]
          simp only [decide_eq_true_eq]
          exact hpe
      refine ⟨?_, by omega, by omega⟩
      rcases H1 with hmem | hz
      · left
        rw [heq]
        exact List.mem_cons_of_mem _ hmem
      · right
        rw [hem, hac]
        exact hz

theorem commit_foldl_inv (r h : String) (evs : List CommitEvent) :
    ∀ st : CommitState,
      ((r, h) ∈ st.reported ∨ (emittedCount st r h = 0 ∧ activityCount st r h = 0)) →
      emittedCount st r h ≤ 1 → activityCount st r h ≤ 1 →
      emittedCount (evs.foldl commit_step st) r h ≤ 1 ∧
      activityCount (evs.foldl commit_step st) r h ≤ 1 := by
  induction evs with
  | nil => intro st H1 H2 H3; exact ⟨H2, H3⟩
  | cons e rest ih =>
    intro st H1 H2 H3
    obtain ⟨K1, K2, K3⟩ := commit_step_inv r h st e H1 H2 H3
    exact ih (commit_step st e) K1 K2 K3

/-- C7: for every repository root and every distinct commit id read from the
tail of `.git/logs/HEAD`, replaying any sequence of modification events
emits at most one commit signal and records at most one commit activity:
the per-root `git_operations` set makes re-delivery of the same tail commit
id a no-op. -/
theorem C7_commit_detection_idempotent (evs : List CommitEvent) (r h : String) :
    emittedCount (commit_run evs) r h ≤ 1 ∧
    activityCount (commit_run evs) r h ≤ 1 := by
  rw [commit_run]
  exact commit_foldl_inv r h evs ⟨[], [], []⟩ (Or.inr ⟨rfl, rfl⟩)
    (by simp [emittedCount]) (by simp [activityCount])


/-! ### Claim C8: commit comments are gated by the line threshold -/

theorem apply_status_rule_no_comment (c : TrackerClient) (k : String)
    (r : StatusRule) (k2 b : String) :
    JCall.addComment k2 b ∉ (apply_status_rule c k r).2 := by
  intro hmem
  rw [apply_status_rule] at hmem
  cases hg : c.get_issue k with
  | none => rw [hg] at hmem; simp at hmem
  | some info =>
    rw [hg] at hmem
    have hmem2 : JCall.addComment k2 b ∈
        (if r.from_status ≠ [] ∧ info.status ∉ r.from_status then
          ((false : Bool), [JCall.getIssue k])
        else
          match r.to_status with
          | none => (false, [JCall.getIssue k])
          | some t =>
            if t = "" then (false, [JCall.getIssue k])
            else (c.transition_issue k t,
                  [JCall.getIssue k, JCall.transition k t])).2 := hmem
    split at hmem2
    · simp at hmem2
    · split at hmem2
      · simp at hmem2
      · split at hmem2
        · simp at hmem2
        · simp at hmem2

theorem on_first_commit_no_comment (sm : StatusManager) (k m k2 b : String) :
    JCall.addComment k2 b ∉ (StatusManager.on_first_commit sm k m).2 := by
  intro hmem
  rw [StatusManager.on_first_commit] at hmem
  split at hmem
  · simp at hmem
  · split at hmem
    · simp at hmem
    · split at hmem
      · simp at hmem
      · split at hmem
        · simp at hmem
        · exact apply_status_rule_no_comment _ _ _ _ _ hmem

theorem comment_calls_eq (db : DB) (sm : StatusManager) (t : Int)
    (path hash nowStr m : String) (rid : Nat) (s : Session) (k : String)
    (c : TrackerClient)
    (hr : get_repository_by_path db path = some rid)
    (hs : get_active_session_for_repo db rid = some s)
    (hk : s.jira_issue = some k)
    (hc : sm.jira_client = some c) :
    comment_calls db sm t path hash (some m) nowStr =
      if m ≠ "" ∧ (linesCount m : Int) > t then
        [JCall.addComment k (comment_body hash nowStr m)]
      else [] := by
  rw [comment_calls]
  by_cases h1 : m ≠ "" ∧ (linesCount m : Int) > t
  · rw [if_pos h1]
    have hb : (decide (m ≠ "") && decide ((linesCount m : Int) > t)) = true := by
      simp [h1.1, h1.2]
    simp [hb, hr, hs, hk, hc]
    exact ⟨h1.1, h1.2⟩
  · rw [if_neg h1]
    have hb : (decide (m ≠ "") && decide ((linesCount m : Int) > t)) = false := by
      rcases not_and_or.mp h1 with h2 | h2 <;> simp [h2]
    simp [hb]
    intro h2 h3
    exact absurd ⟨h2, h3⟩ h1

theorem handle_commit_calls_split (db : DB) (mon : Monitor) (fc : List Nat)
    (sm : StatusManager) (t : Int) (path hash nowStr : String) (m : String)
    (sid rid : Nat) (k : String)
    (hm : mapLookup mon.active_sessions path = some sid)
    (hr : get_repository_by_path db path = some rid) :
    ∃ pre,
      (handle_commit_detection db mon fc sm t path hash (some m) nowStr).2 =
        pre ++ comment_calls db sm t path hash (some m) nowStr ∧
      (∀ b, JCall.addComment k b ∉ pre) := by
  by_cases hf : sid ∈ fc
  · exact ⟨[], by simp [handle_commit_detection, hm, hf], by simp⟩
  · refine ⟨(match get_active_session_for_repo db rid with
      | some s =>
        match s.jira_issue with
        | some k2 => (StatusManager.on_first_commit sm k2 (Option.getD (some m) "")).2
        | none => []
      | none => []), ?_, ?_⟩
    · simp [handle_commit_detection, hm, hf, hr]
    · intro b hb
      cases hsa : get_active_session_for_repo db rid with
      | none => rw [hsa] at hb; simp at hb
      | some s2 =>
        rw [hsa] at hb
        have hb2 : JCall.addComment k b ∈ (match s2.jira_issue with
          | some k2 => (StatusManager.on_first_commit sm k2 (Option.getD (some m) "")).2
          | none => ([] : List JCall)) := hb
        cases hk2 : s2.jira_issue with
        | none => rw [hk2] at hb2; simp at hb2
        | some kk =>
          rw [hk2] at hb2
          have hb3 : JCall.addComment k b ∈
              (StatusManager.on_first_commit sm kk (Option.getD (some m) "")).2 := hb2
          exact on_first_commit_no_comment sm kk _ k b hb3

/-- C8: when a commit is detected for a repository whose active session has
an issue key and the tracker client is available, a formatted comment is
posted to the issue if and only if the commit message has strictly more
lines than `commit_comment_threshold` (the claim's own reading fixes the
threshold at its default 1 or above, where "more lines than the threshold"
also forces the Python truthiness test `if commit_message` to pass). -/
theorem C8_commit_comment_iff_lines_above_threshold
    (db : DB) (mon : Monitor) (fc : List Nat) (sm : StatusManager) (t : Int)
    (path hash nowStr : String) (msg : Option String) (m : String)
    (sid rid : Nat) (s : Session) (k : String) (c : TrackerClient)
    (hm : mapLookup mon.active_sessions path = some sid)
    (hr : get_repository_by_path db path = some rid)
    (hs : get_active_session_for_repo db rid = some s)
    (hk : s.jira_issue = some k)
    (hc : sm.jira_client = some c)
    (hmsg : msg = some m)
    (ht : 1 ≤ t) :
    (∃ b, JCall.addComment k b ∈
        (handle_commit_detection db mon fc sm t path hash msg nowStr).2) ↔
      (linesCount m : Int) > t := by
  subst hmsg
  obtain ⟨pre, hsplit, hpre⟩ :=
    handle_commit_calls_split db mon fc sm t path hash nowStr m sid rid k hm hr
  have hcc := comment_calls_eq db sm t path hash nowStr m rid s k c hr hs hk hc
  constructor
  · rintro ⟨b, hb⟩
    rw [hsplit] at hb
    rcases List.mem_append.mp hb with h1 | h2
    · exact absurd h1 (hpre b)
    · rw [hcc] at h2
      by_cases hcond : m ≠ "" ∧ (linesCount m : Int) > t
      · exact hcond.2
      · rw [if_neg hcond] at h2
        simp at h2
  · intro hgt
    have hne : m ≠ "" := by
      intro he
      rw [he] at hgt
      have h1 : linesCount "" = 1 := rfl
      rw [h1] at hgt
      omega
    refine ⟨comment_body hash nowStr m, ?_⟩
    rw [hsplit, hcc, if_pos ⟨hne, hgt⟩]
    exact List.mem_append.mpr (Or.inr (by simp))

/-- Witness for C8: one repository `p` with an active session on issue
`AB-1`, threshold 1, and a two-line commit message. -/
theorem C8_commit_comment_witness :
    (1 : Int) ≤ 1 ∧
    ((∃ b, JCall.addComment "AB-1" b ∈
        (handle_commit_detection
          ⟨[("p", 0)], 1,
           [{ id := 0, repository_id := 0, branch_name := "feature/AB-1",
              jira_issue := some "AB-1", start_time := 0, end_time := none,
              total_minutes := 0, is_active := true, status := "active" }], 1⟩
          ⟨[("p", 0)]⟩ [] ⟨{}, some ⟨fun _ => some ⟨"To Do"⟩, fun _ _ => true⟩⟩
          1 "p" "deadbeef" (some "fix login\nrace fixed") "now").2) ↔
      (linesCount "fix login\nrace fixed" : Int) > 1) :=
  ⟨by decide,
   C8_commit_comment_iff_lines_above_threshold
     ⟨[("p", 0)], 1,
      [{ id := 0, repository_id := 0, branch_name := "feature/AB-1",
         jira_issue := some "AB-1", start_time := 0, end_time := none,
         total_minutes := 0, is_active := true, status := "active" }], 1⟩
     ⟨[("p", 0)]⟩ [] ⟨{}, some ⟨fun _ => some ⟨"To Do"⟩, fun _ _ => true⟩⟩
     1 "p" "deadbeef" "now" (some "fix login\nrace fixed") "fix login\nrace fixed"
     0 0
     { id := 0, repository_id := 0, branch_name := "feature/AB-1",
       jira_issue := some "AB-1", start_time := 0, end_time := none,
       total_minutes := 0, is_active := true, status := "active" }
     "AB-1" ⟨fun _ => some ⟨"To Do"⟩, fun _ _ => true⟩
     (by decide) (by decide) (by decide) (by decide) rfl rfl (by decide)⟩

/-! ### Session-machine invariants: primitive lemmas -/

/-- Fields of `end_update` on a row with a different id: untouched. -/
theorem end_update_of_ne {s : Session} {sid t : Nat} (h : s.id ≠ sid) :
    end_update sid t s = s := by
  rw [end_update, if_neg h]

/-- `end_update` never changes a row's id. -/
theorem end_update_id (sid t : Nat) (s : Session) :
    (end_update sid t s).id = s.id := by
  rw [end_update]; split <;> rfl

/-- `end_update` never changes a row's repository. -/
theorem end_update_rid (sid t : Nat) (s : Session) :
    (end_update sid t s).repository_id = s.repository_id := by
  rw [end_update]; split <;> rfl

/-- `end_update` never changes a row's start time. -/
theorem end_update_start (sid t : Nat) (s : Session) :
    (end_update sid t s).start_time = s.start_time := by
  rw [end_update]; split <;> rfl

/-- Whether or not the row exists, the session table after
`end_work_session` is the pointwise `end_update` image: when the lookup
fails no row has the id and the map is the identity. -/
theorem end_sessions (db : DB) (sid t : Nat) :
    (end_work_session db sid t).1.sessions = db.sessions.map (end_update sid t) := by
  rw [end_work_session]
  split
  · rfl
  · rename_i hf
    have hnone : db.sessions.find? (fun s => decide (s.id = sid)) = none :=
      Option.not_isSome_iff_eq_none.mp hf
    have hall : ∀ s ∈ db.sessions, s.id ≠ sid := by
      intro s hs
      have := List.find?_eq_none.mp hnone s hs
      simpa using this
    have h2 : db.sessions.map (end_update sid t) = db.sessions.map id :=
      List.map_congr_left (fun s hs => (end_update_of_ne (hall s hs)).trans rfl)
    rw [h2, List.map_id]

/-- `end_work_session` leaves the repository table unchanged. -/
theorem end_repos (db : DB) (sid t : Nat) :
    (end_work_session db sid t).1.repos = db.repos := by
  rw [end_work_session]; split <;> rfl

/-- `end_work_session` leaves the session autoincrement unchanged. -/
theorem end_next (db : DB) (sid t : Nat) :
    (end_work_session db sid t).1.next_session_id = db.next_session_id := by
  rw [end_work_session]; split <;> rfl

/-- `end_work_session` leaves the repository autoincrement unchanged. -/
theorem end_next_repo (db : DB) (sid t : Nat) :
    (end_work_session db sid t).1.next_repo_id = db.next_repo_id := by
  rw [end_work_session]; split <;> rfl

/-- Repository lookup is invariant under `end_work_session`. -/
theorem get_repo_end (db : DB) (sid t : Nat) (p : String) :
    get_repository_by_path (end_work_session db sid t).1 p =
      get_repository_by_path db p := by
  rw [get_repository_by_path, get_repository_by_path, end_repos]

/-- Looking up the freshly added path finds the fresh id. -/
theorem get_repo_add_self (db : DB) (p : String) :
    get_repository_by_path (add_repository db p).1 p = some db.next_repo_id := by
  rw [get_repository_by_path, add_repository]
  rw [List.find?_cons_of_pos _ (by simp)]
  rfl

/-- Adding a repository does not affect lookups of other paths. -/
theorem get_repo_add_ne (db : DB) {q p : String} (h : q ≠ p) :
    get_repository_by_path (add_repository db p).1 q =
      get_repository_by_path db q := by
  rw [get_repository_by_path, add_repository, get_repository_by_path]
  rw [List.find?_cons_of_neg _ (by simpa using fun hh => h hh.symm)]

/-- A successful repository lookup comes from a table entry. -/
theorem get_repo_some {db : DB} {p : String} {rid : Nat}
    (h : get_repository_by_path db p = some rid) :
    ∃ e ∈ db.repos, e.1 = p ∧ e.2 = rid := by
  rw [get_repository_by_path] at h
  cases hf : db.repos.find? (fun r => decide (r.1 = p)) with
  | none => rw [hf] at h; exact Option.noConfusion h
  | some e =>
    rw [hf] at h
    refine ⟨e, List.mem_of_find?_eq_some hf, ?_, ?_⟩
    · simpa using List.find?_some hf
    · simpa using h

/-- Under pairwise-distinct paths and ids, the repository id determines the
path: two successful lookups returning the same id come from one entry. -/
theorem repo_path_inj {db : DB}
    (hnd : db.repos.Pairwise (fun a b => a.1 ≠ b.1 ∧ a.2 ≠ b.2))
    {p q : String} {rid : Nat}
    (h1 : get_repository_by_path db p = some rid)
    (h2 : get_repository_by_path db q = some rid) : p = q := by
  obtain ⟨e, he, hep, her⟩ := get_repo_some h1
  obtain ⟨f, hf, hfp, hfr⟩ := get_repo_some h2
  by_cases hef : e = f
  · rw [← hep, ← hfp, hef]
  · have hR := hnd.forall (fun x y h => ⟨Ne.symm h.1, Ne.symm h.2⟩) he hf hef
    exact absurd (her.trans hfr.symm) hR.2

/-- Under pairwise-distinct ids, a session's id determines the row. -/
theorem session_id_unique {l : List Session}
    (hnd : l.Pairwise (fun a b => a.id ≠ b.id))
    {s s2 : Session} (hs : s ∈ l) (hs2 : s2 ∈ l) (hid : s.id = s2.id) :
    s = s2 := by
  by_cases h : s = s2
  · exact h
  · exact absurd hid (hnd.forall (fun x y hh => Ne.symm hh) hs hs2 h)

/-- `find?` ignores entries removed by filtering on a different key. -/
theorem find_filter_ne {p q : String} (h : q ≠ p) :
    ∀ m : List (String × Nat),
      (m.filter (fun e => decide (e.1 ≠ p))).find? (fun e => decide (e.1 = q)) =
        m.find? (fun e => decide (e.1 = q))
  | [] => rfl
  | e :: t => by
    by_cases he : e.1 = p
    · rw [List.filter_cons_of_neg (by simpa using he)]
      rw [List.find?_cons_of_neg _ (by simp [he]; exact fun hh => h hh.symm)]
      exact find_filter_ne h t
    · rw [List.filter_cons_of_pos (by simpa using he)]
      by_cases hq : e.1 = q
      · rw [List.find?_cons_of_pos _ (by simpa using hq),
            List.find?_cons_of_pos _ (by simpa using hq)]
      · rw [List.find?_cons_of_neg _ (by simpa using hq),
            List.find?_cons_of_neg _ (by simpa using hq)]
        exact find_filter_ne h t

/-- Assignment then lookup at the same key. -/
theorem mapLookup_set_self (m : List (String × Nat)) (p : String) (v : Nat) :
    mapLookup (mapSet m p v) p = some v := by
  rw [mapLookup, mapSet, List.find?_cons_of_pos _ (by simp)]
  rfl

/-- Assignment does not affect lookups at other keys. -/
theorem mapLookup_set_ne {m : List (String × Nat)} {q p : String} (v : Nat)
    (h : q ≠ p) : mapLookup (mapSet m p v) q = mapLookup m q := by
  rw [mapLookup, mapSet, List.find?_cons_of_neg _ (by simp; exact fun hh => h hh.symm)]
  rw [find_filter_ne h m, mapLookup]

/-- Deletion then lookup at the same key. -/
theorem mapLookup_remove_self (m : List (String × Nat)) (p : String) :
    mapLookup (mapRemove m p) p = none := by
  rw [mapLookup, mapRemove]
  rw [List.find?_eq_none.mpr ?_]
  · rfl
  · intro e he
    have := (List.mem_filter.mp he).2
    simpa using fun hh => by simp [hh] at this

/-- Deletion does not affect lookups at other keys. -/
theorem mapLookup_remove_ne {m : List (String × Nat)} {q p : String}
    (h : q ≠ p) : mapLookup (mapRemove m p) q = mapLookup m q := by
  rw [mapLookup, mapRemove, find_filter_ne h m, mapLookup]

/-- A hit of `get_active_session_for_repo` is an active row of the repo. -/
theorem getActive_mem {db : DB} {rid : Nat} {ex : Session}
    (h : get_active_session_for_repo db rid = some ex) :
    ex ∈ db.sessions ∧ ex.repository_id = rid ∧ ex.is_active = true := by
  rw [get_active_session_for_repo] at h
  cases hf : db.sessions.filter
      (fun s => decide (s.repository_id = rid ∧ s.is_active = true)) with
  | nil => rw [hf] at h; exact Option.noConfusion h
  | cons x xs =>
    rw [hf] at h
    have hx : x = ex := by simpa using h
    subst hx
    have hm : x ∈ db.sessions.filter
        (fun s => decide (s.repository_id = rid ∧ s.is_active = true)) := by
      rw [hf]; exact List.mem_cons_self x xs
    obtain ⟨hmem, hp⟩ := List.mem_filter.mp hm
    simp only [decide_eq_true_eq] at hp
    exact ⟨hmem, hp.1, hp.2⟩

/-- When `get_active_session_for_repo` misses, the repo has no active row. -/
theorem getActive_none {db : DB} {rid : Nat}
    (h : get_active_session_for_repo db rid = none) :
    activeCount db rid = 0 := by
  rw [get_active_session_for_repo] at h
  rw [activeCount, List.countP_eq_length_filter, List.head?_eq_none_iff.mp h]
  rfl

/-- Under I1, a hit of `get_active_session_for_repo` is the repo's only
active row: the filtered list is exactly the singleton. -/
theorem getActive_filter_eq {db : DB} {rid : Nat} {ex : Session}
    (h : get_active_session_for_repo db rid = some ex)
    (hc : activeCount db rid ≤ 1) :
    db.sessions.filter
      (fun s => decide (s.repository_id = rid ∧ s.is_active = true)) = [ex] := by
  rw [get_active_session_for_repo] at h
  rw [activeCount, List.countP_eq_length_filter] at hc
  cases hf : db.sessions.filter
      (fun s => decide (s.repository_id = rid ∧ s.is_active = true)) with
  | nil => rw [hf] at h; exact Option.noConfusion h
  | cons x xs =>
    rw [hf] at h hc
    have hx : x = ex := by simpa using h
    subst hx
    cases xs with
    | nil => rfl
    | cons y ys => simp at hc

/-- Adding a repository leaves the active-session counts unchanged. -/
theorem activeCount_add (db : DB) (p : String) (rid : Nat) :
    activeCount (add_repository db p).1 rid = activeCount db rid := rfl

/-- Ending a session can only decrease an active-session count. -/
theorem activeCount_end_le (db : DB) (sid t rid : Nat) :
    activeCount (end_work_session db sid t).1 rid ≤ activeCount db rid := by
  rw [activeCount, activeCount, end_sessions, List.countP_map]
  apply List.countP_mono_left
  intro s hs hp
  simp only [Function.comp] at hp
  by_cases hid : s.id = sid
  · rw [end_update, if_pos hid] at hp
    simp at hp
  · rw [end_update_of_ne hid] at hp
    exact hp

/-- Ending the repo's unique active session leaves it with none. -/
theorem activeCount_end_zero {db : DB} {rid : Nat} {ex : Session}
    (h : get_active_session_for_repo db rid = some ex)
    (hc : activeCount db rid ≤ 1) (t : Nat) :
    activeCount (end_work_session db ex.id t).1 rid = 0 := by
  have hfe := getActive_filter_eq h hc
  rw [activeCount, end_sessions, List.countP_map, List.countP_eq_zero]
  intro s hs hp
  simp only [Function.comp] at hp
  by_cases hid : s.id = ex.id
  · rw [end_update, if_pos hid] at hp
    simp at hp
  · rw [end_update_of_ne hid] at hp
    have hmem : s ∈ db.sessions.filter
        (fun s => decide (s.repository_id = rid ∧ s.is_active = true)) :=
      List.mem_filter.mpr ⟨hs, hp⟩
    rw [hfe] at hmem
    exact hid (by rw [List.mem_singleton.mp hmem])

/-- Starting a session increments the repo's active-session count. -/
theorem activeCount_start_self (db : DB) (rid : Nat) (b : String)
    (i : Option String) (t : Nat) :
    activeCount (start_work_session db rid b i t).1 rid = activeCount db rid + 1 := by
  rw [activeCount, activeCount, start_work_session]
  simp [List.countP_cons]

/-- Starting a session leaves other repos' active-session counts alone. -/
theorem activeCount_start_ne (db : DB) {rid q : Nat} (b : String)
    (i : Option String) (t : Nat) (h : q ≠ rid) :
    activeCount (start_work_session db rid b i t).1 q = activeCount db q := by
  rw [activeCount, activeCount, start_work_session]
  simp [List.countP_cons, Ne.symm h]

/-- Rows with other ids survive `end_work_session` untouched. -/
theorem mem_end_of_ne {db : DB} {s : Session} {sid : Nat} (t : Nat)
    (hs : s ∈ db.sessions) (h : s.id ≠ sid) :
    s ∈ (end_work_session db sid t).1.sessions := by
  rw [end_sessions]
  have hmem := List.mem_map_of_mem (end_update sid t) hs
  rwa [end_update_of_ne h] at hmem

/-- Python `int((now - start)/60)` on a nonnegative difference is the
natural floor division. -/
theorem tdiv_sixty {a b : Nat} (h : b ≤ a) :
    ((a : Int) - (b : Int)).tdiv 60 = (((a - b) / 60 : Nat) : Int) := by
  rw [← Int.ofNat_sub h]
  rfl

/-! ### Preservation of the structural invariants by the store operations -/

/-- `end_work_session` preserves the structural invariants. -/
theorem dbInv_end {db : DB} (h : DBInv db) (sid t : Nat) :
    DBInv (end_work_session db sid t).1 := by
  refine ⟨?_, ?_, ?_, ?_, ?_⟩
  · intro s hs
    rw [end_sessions] at hs
    obtain ⟨s0, hs0, rfl⟩ := List.mem_map.mp hs
    rw [end_update_id, end_next]
    exact h.sess_bound s0 hs0
  · rw [end_sessions]
    rw [List.pairwise_map]
    refine h.sess_nodup.imp ?_
    intro a b hab
    rw [end_update_id, end_update_id]
    exact hab
  · intro r hr
    rw [end_repos] at hr
    rw [end_next_repo]
    exact h.repo_bound r hr
  · rw [end_repos]
    exact h.repo_nodup
  · intro rid
    exact le_trans (activeCount_end_le db sid t rid) (h.i1 rid)

/-- `start_work_session` preserves the structural invariants when the
target repository has no active session. -/
theorem dbInv_start {db : DB} (h : DBInv db) {rid : Nat} (b : String)
    (i : Option String) (t : Nat) (hz : activeCount db rid = 0) :
    DBInv (start_work_session db rid b i t).1 := by
  refine ⟨?_, ?_, ?_, ?_, ?_⟩
  · intro s hs
    rw [start_work_session] at hs ⊢
    rcases List.mem_cons.mp hs with rfl | hmem
    · exact Nat.lt_succ_self _
    · exact Nat.lt_succ_of_lt (h.sess_bound s hmem)
  · rw [start_work_session]
    refine List.Pairwise.cons ?_ h.sess_nodup
    intro s hs hid
    exact absurd (hid ▸ h.sess_bound s hs) (Nat.lt_irrefl _)
  · intro r hr
    exact h.repo_bound r hr
  · exact h.repo_nodup
  · intro q
    by_cases hq : q = rid
    · subst hq
      rw [activeCount_start_self, hz]
    · rw [activeCount_start_ne db b i t hq]
      exact h.i1 q

/-- `add_repository` preserves the structural invariants when the path is
not yet registered. -/
theorem dbInv_add {db : DB} (h : DBInv db) {p : String}
    (hnone : get_repository_by_path db p = none) :
    DBInv (add_repository db p).1 := by
  have hfind : db.repos.find? (fun r => decide (r.1 = p)) = none := by
    rw [get_repository_by_path] at hnone
    cases hf : db.repos.find? (fun r => decide (r.1 = p)) with
    | none => rfl
    | some e => rw [hf] at hnone; exact Option.noConfusion hnone
  have hpaths : ∀ e ∈ db.repos, e.1 ≠ p := by
    intro e he
    have := List.find?_eq_none.mp hfind e he
    simpa using this
  refine ⟨?_, ?_, ?_, ?_, ?_⟩
  · intro s hs
    exact h.sess_bound s hs
  · exact h.sess_nodup
  · intro r hr
    rw [add_repository] at hr ⊢
    rcases List.mem_cons.mp hr with rfl | hmem
    · exact Nat.lt_succ_self _
    · exact Nat.lt_succ_of_lt (h.repo_bound r hmem)
  · rw [add_repository]
    refine List.Pairwise.cons ?_ h.repo_nodup
    intro e he
    refine ⟨fun hh => hpaths e he hh.symm, ?_⟩
    intro hh
    exact absurd (hh ▸ h.repo_bound e he) (Nat.lt_irrefl _)
  · intro rid
    rw [activeCount_add]
    exact h.i1 rid

/-- Registering a new path keeps every `active_sessions` entry valid: no
entry can mention the unregistered path. -/
theorem mapOk_add {st : MonState} (hmo : MapOk st) {p : String}
    (hnone : get_repository_by_path st.db p = none) :
    MapOk ⟨(add_repository st.db p).1, st.mon⟩ := by
  intro q sid hl
  obtain ⟨s, hs, h1, h2, h3⟩ := hmo q sid hl
  have hq : q ≠ p := by
    intro he
    rw [he, hnone] at h3
    exact Option.noConfusion h3
  refine ⟨s, hs, h1, h2, ?_⟩
  show get_repository_by_path (add_repository st.db p).1 q = some s.repository_id
  rw [get_repo_add_ne st.db hq]
  exact h3

/-! ### Preservation of the combined invariant by the handlers -/

/-- `open_session` establishes the combined invariant when the target
repository is registered under the path and has no active session, and all
other map entries are already valid. -/
theorem invC_open_session (st0 : MonState) {p : String} {rid : Nat}
    (b : String) (i : Option String) (t : Nat)
    (hdb : DBInv st0.db) (hz : activeCount st0.db rid = 0)
    (hrepo : get_repository_by_path st0.db p = some rid)
    (hmo2 : ∀ q sid, q ≠ p → mapLookup st0.mon.active_sessions q = some sid →
      ∃ s ∈ st0.db.sessions, s.id = sid ∧ s.is_active = true ∧
        get_repository_by_path st0.db q = some s.repository_id) :
    InvC (open_session st0 p rid b i t) := by
  constructor
  · show DBInv (start_work_session st0.db rid b i t).1
    exact dbInv_start hdb b i t hz
  · intro q sid hl
    have hl2 : mapLookup
        (mapSet st0.mon.active_sessions p (start_work_session st0.db rid b i t).2)
        q = some sid := hl
    by_cases hq : q = p
    · subst hq
      rw [mapLookup_set_self] at hl2
      refine ⟨{ id := st0.db.next_session_id, repository_id := rid,
                branch_name := b, jira_issue := i, start_time := t,
                end_time := none, total_minutes := 0, is_active := true,
                status := "active" }, ?_, ?_, rfl, ?_⟩
      · show _ ∈ (start_work_session st0.db rid b i t).1.sessions
        rw [start_work_session]
        exact List.mem_cons_self _ _
      · exact Option.some.inj hl2
      · show get_repository_by_path st0.db q = some rid
        exact hrepo
    · rw [mapLookup_set_ne _ hq] at hl2
      obtain ⟨s, hs, h1, h2, h3⟩ := hmo2 q sid hq hl2
      refine ⟨s, ?_, h1, h2, ?_⟩
      · show s ∈ (start_work_session st0.db rid b i t).1.sessions
        rw [start_work_session]
        exact List.mem_cons_of_mem _ hs
      · show get_repository_by_path st0.db q = some s.repository_id
        exact h3

/-- Rebinding the path of an already-running session to that session's id
preserves the combined invariant. -/
theorem invC_keep_session (st1 : MonState) {p : String} {rid : Nat} {ex : Session}
    (hdb : DBInv st1.db) (hmo : MapOk st1)
    (hrepo : get_repository_by_path st1.db p = some rid)
    (hact : get_active_session_for_repo st1.db rid = some ex) :
    InvC ⟨st1.db, ⟨mapSet st1.mon.active_sessions p ex.id⟩⟩ := by
  constructor
  · exact hdb
  · intro q sid hl
    have hl2 : mapLookup (mapSet st1.mon.active_sessions p ex.id) q = some sid := hl
    by_cases hq : q = p
    · subst hq
      rw [mapLookup_set_self] at hl2
      obtain ⟨hm, hrid2, hav⟩ := getActive_mem hact
      refine ⟨ex, hm, Option.some.inj hl2, hav, ?_⟩
      show get_repository_by_path st1.db q = some ex.repository_id
      rw [hrepo, hrid2]
    · rw [mapLookup_set_ne _ hq] at hl2
      obtain ⟨s, hs, h1, h2, h3⟩ := hmo q sid hl2
      exact ⟨s, hs, h1, h2, h3⟩

/-- Ending the repository's unique active session and opening a fresh one
on the same path preserves the combined invariant. -/
theorem invC_open_after_end (st1 : MonState) {p : String} {rid : Nat} {ex : Session}
    (b : String) (i : Option String) (t : Nat)
    (hdb : DBInv st1.db) (hmo : MapOk st1)
    (hrepo : get_repository_by_path st1.db p = some rid)
    (hact : get_active_session_for_repo st1.db rid = some ex) :
    InvC (open_session ⟨(end_work_session st1.db ex.id t).1, st1.mon⟩ p rid b i t) := by
  apply invC_open_session
  · exact dbInv_end hdb ex.id t
  · exact activeCount_end_zero hact (hdb.i1 rid) t
  · show get_repository_by_path (end_work_session st1.db ex.id t).1 p = some rid
    rw [get_repo_end]
    exact hrepo
  · intro q sid hq hl
    have hl2 : mapLookup st1.mon.active_sessions q = some sid := hl
    obtain ⟨s, hs, h1, h2, h3⟩ := hmo q sid hl2
    obtain ⟨hm, hrid2, hav⟩ := getActive_mem hact
    by_cases hid : s.id = ex.id
    · exfalso
      apply hq
      have hse : s = ex := session_id_unique hdb.sess_nodup hs hm hid
      rw [hse, hrid2] at h3
      exact repo_path_inj hdb.repo_nodup h3 hrepo
    · refine ⟨s, mem_end_of_ne t hs hid, h1, h2, ?_⟩
      show get_repository_by_path (end_work_session st1.db ex.id t).1 q =
        some s.repository_id
      rw [get_repo_end]
      exact h3

/-- Opening a session on a registered repository with no active session
preserves the combined invariant. -/
theorem invC_open_no_active (st1 : MonState) {p : String} {rid : Nat}
    (b : String) (i : Option String) (t : Nat)
    (hdb : DBInv st1.db) (hmo : MapOk st1)
    (hrepo : get_repository_by_path st1.db p = some rid)
    (hact : get_active_session_for_repo st1.db rid = none) :
    InvC (open_session st1 p rid b i t) := by
  apply invC_open_session st1 b i t hdb (getActive_none hact) hrepo
  intro q sid hq hl
  exact hmo q sid hl

/-- `_handle_repository_entry` preserves the combined invariant. -/
theorem invC_repo_entry {st : MonState} (h : InvC st) (p b : String)
    (i : Option String) (t : Nat) : InvC (handle_repo_entry st p b i t) := by
  obtain ⟨hdb, hmo⟩ := h
  cases hrepo : get_repository_by_path st.db p with
  | some rid =>
    cases hact : get_active_session_for_repo st.db rid with
    | some ex =>
      by_cases hbr : ex.branch_name = b
      · have hstate : handle_repo_entry st p b i t =
            ⟨st.db, ⟨mapSet st.mon.active_sessions p ex.id⟩⟩ := by
          rw [handle_repo_entry]
          simp only [hrepo, hact, if_pos hbr]
        rw [hstate]
        exact invC_keep_session st hdb hmo hrepo hact
      · have hstate : handle_repo_entry st p b i t =
            open_session ⟨(end_work_session st.db ex.id t).1, st.mon⟩ p rid b i t := by
          rw [handle_repo_entry]
          simp only [hrepo, hact, if_neg hbr]
        rw [hstate]
        exact invC_open_after_end st b i t hdb hmo hrepo hact
    | none =>
      have hstate : handle_repo_entry st p b i t =
          open_session ⟨st.db, st.mon⟩ p rid b i t := by
        rw [handle_repo_entry]
        simp only [hrepo, hact]
      rw [hstate]
      exact invC_open_no_active ⟨st.db, st.mon⟩ b i t hdb hmo hrepo hact
  | none =>
    have hdb2 : DBInv (add_repository st.db p).1 := dbInv_add hdb hrepo
    have hmo2 : MapOk ⟨(add_repository st.db p).1, st.mon⟩ := mapOk_add hmo hrepo
    have hrepo2 : get_repository_by_path (add_repository st.db p).1 p =
        some (add_repository st.db p).2 := get_repo_add_self st.db p
    cases hact : get_active_session_for_repo (add_repository st.db p).1
        (add_repository st.db p).2 with
    | some ex =>
      by_cases hbr : ex.branch_name = b
      · have hstate : handle_repo_entry st p b i t =
            ⟨(add_repository st.db p).1, ⟨mapSet st.mon.active_sessions p ex.id⟩⟩ := by
          rw [handle_repo_entry]
          simp only [hrepo, hact, if_pos hbr]
        rw [hstate]
        exact invC_keep_session ⟨(add_repository st.db p).1, st.mon⟩ hdb2 hmo2 hrepo2 hact
      · have hstate : handle_repo_entry st p b i t =
            open_session ⟨(end_work_session (add_repository st.db p).1 ex.id t).1, st.mon⟩
              p (add_repository st.db p).2 b i t := by
          rw [handle_repo_entry]
          simp only [hrepo, hact, if_neg hbr]
        rw [hstate]
        exact invC_open_after_end ⟨(add_repository st.db p).1, st.mon⟩ b i t hdb2 hmo2
          hrepo2 hact
    | none =>
      have hstate : handle_repo_entry st p b i t =
          open_session ⟨(add_repository st.db p).1, st.mon⟩ p (add_repository st.db p).2
            b i t := by
        rw [handle_repo_entry]
        simp only [hrepo, hact]
      rw [hstate]
      exact invC_open_no_active ⟨(add_repository st.db p).1, st.mon⟩ b i t hdb2 hmo2
        hrepo2 hact

/-- `_handle_branch_change` preserves the combined invariant. -/
theorem invC_branch_change {st : MonState} (h : InvC st) (p nb : String)
    (i : Option String) (t : Nat) : InvC (handle_branch_change st p nb i t) := by
  obtain ⟨hdb, hmo⟩ := h
  cases hrepo : get_repository_by_path st.db p with
  | none =>
    have hstate : handle_branch_change st p nb i t = st := by
      rw [handle_branch_change]
      simp only [hrepo]
    rw [hstate]
    exact ⟨hdb, hmo⟩
  | some rid =>
    cases hact : get_active_session_for_repo st.db rid with
    | some ex =>
      have hstate : handle_branch_change st p nb i t =
          open_session ⟨(end_work_session st.db ex.id t).1, st.mon⟩ p rid nb i t := by
        rw [handle_branch_change]
        simp only [hrepo, hact]
      rw [hstate]
      exact invC_open_after_end st nb i t hdb hmo hrepo hact
    | none =>
      have hstate : handle_branch_change st p nb i t =
          open_session ⟨st.db, st.mon⟩ p rid nb i t := by
        rw [handle_branch_change]
        simp only [hrepo, hact]
      rw [hstate]
      exact invC_open_no_active ⟨st.db, st.mon⟩ nb i t hdb hmo hrepo hact

/-- Ending the mapped session on shutdown preserves the combined
invariant. -/
theorem invC_session_end {st : MonState} (h : InvC st) (p : String) (t : Nat) :
    InvC (handle_session_end st p t) := by
  obtain ⟨hdb, hmo⟩ := h
  cases hl : mapLookup st.mon.active_sessions p with
  | none =>
    have hstate : handle_session_end st p t = st := by
      rw [handle_session_end]
      simp only [hl]
    rw [hstate]
    exact ⟨hdb, hmo⟩
  | some sid =>
    have hstate : handle_session_end st p t =
        ⟨(end_work_session st.db sid t).1, ⟨mapRemove st.mon.active_sessions p⟩⟩ := by
      rw [handle_session_end]
      simp only [hl]
    rw [hstate]
    constructor
    · exact dbInv_end hdb sid t
    · intro q sid2 hl2
      have hl3 : mapLookup (mapRemove st.mon.active_sessions p) q = some sid2 := hl2
      by_cases hq : q = p
      · subst hq
        rw [mapLookup_remove_self] at hl3
        exact Option.noConfusion hl3
      · rw [mapLookup_remove_ne hq] at hl3
        obtain ⟨s, hs, h1, h2, h3⟩ := hmo q sid2 hl3
        by_cases hid : s.id = sid
        · obtain ⟨s0, hs0, h01, h02, h03⟩ := hmo p sid hl
          have hse : s = s0 := session_id_unique hdb.sess_nodup hs hs0 (hid.trans h01.symm)
          exfalso
          apply hq
          rw [hse] at h3
          exact repo_path_inj hdb.repo_nodup h3 h03
        · refine ⟨s, mem_end_of_ne t hs hid, h1, h2, ?_⟩
          show get_repository_by_path (end_work_session st.db sid t).1 q =
            some s.repository_id
          rw [get_repo_end]
          exact h3

/-- Activity-driven branch-change checking preserves the combined
invariant. -/
theorem invC_file_modified {st : MonState} (h : InvC st) (p : String)
    (cur : Option String) (t : Nat) : InvC (handle_file_modified st p cur t) := by
  cases cur with
  | none =>
    simp only [handle_file_modified]
    exact h
  | some cb =>
    cases hml : mapLookup st.mon.active_sessions p with
    | none =>
      simp only [handle_file_modified, hml]
      exact h
    | some k =>
      cases hrepo : get_repository_by_path st.db p with
      | none =>
        simp only [handle_file_modified, hml, hrepo]
        exact h
      | some rid =>
        cases hact : get_active_session_for_repo st.db rid with
        | none =>
          simp only [handle_file_modified, hml, hrepo, hact]
          exact h
        | some sx =>
          by_cases hbr : sx.branch_name ≠ cb
          · simp only [handle_file_modified, hml, hrepo, hact, if_pos hbr]
            exact invC_branch_change h _ _ _ _
          · simp only [handle_file_modified, hml, hrepo, hact, if_neg hbr]
            exact h

/-- Every event of the session manager preserves the combined invariant. -/
theorem invC_monitor_step {st : MonState} (h : InvC st) (e : MonEvent × Nat) :
    InvC (monitor_step st e) := by
  cases e with
  | mk ev t =>
    cases ev with
    | repoEntry p b i => exact invC_repo_entry h p b i t
    | branchChange p nb i => exact invC_branch_change h p nb i t
    | fileModified p cb => exact invC_file_modified h p cb t
    | commitSeen p => exact h
    | sessionEnd p => exact invC_session_end h p t

/-- The empty initial state satisfies the combined invariant. -/
theorem invC_init : InvC init_state := by
  constructor
  · refine ⟨?_, ?_, ?_, ?_, ?_⟩
    · intro s hs
      exact absurd hs (List.not_mem_nil s)
    · exact List.Pairwise.nil
    · intro r hr
      exact absurd hr (List.not_mem_nil r)
    · exact List.Pairwise.nil
    · intro rid
      show List.countP _ [] ≤ 1
      simp
  · intro p sid hl
    simp [mapLookup, init_state] at hl

/-- The combined invariant holds after any run of the session manager. -/
theorem invC_run (evs : List (MonEvent × Nat)) : InvC (monitor_run evs) := by
  rw [monitor_run]
  have hfold : ∀ (l : List (MonEvent × Nat)) (st : MonState), InvC st →
      InvC (l.foldl monitor_step st) := by
    intro l
    induction l with
    | nil => intro st h; exact h
    | cons e rest ih =>
      intro st h
      rw [List.foldl_cons]
      exact ih _ (invC_monitor_step h e)
  exact hfold evs init_state invC_init

/-- C1: for every repository and after every prefix of a sequence of
repo-entry, branch-change, file-modification, commit and session-end
events processed by the session manager, the set of that repository's
work sessions with `active = true` has at most one element (invariant
I1). -/
theorem C1_at_most_one_active_session (evs : List (MonEvent × Nat)) (rid : Nat) :
    activeCount (monitor_run evs).db rid ≤ 1 :=
  (invC_run evs).dbi.i1 rid

/-! ### Preservation of the time-dependent invariants -/

/-- Raising the time bound preserves the time-dependent invariants. -/
theorem timeInv_mono {st : MonState} {T t : Nat} (h : TimeInv T st) (hTt : T ≤ t) :
    TimeInv t st :=
  ⟨fun s hs => le_trans (h.start_le s hs) hTt, h.completed_ok⟩

/-- `end_work_session` at an instant `t ≥ T` keeps all start times below
`T` and closes any row it completes with the floor duration. -/
theorem end_preserves_time {db : DB} (sid : Nat) {T t : Nat} (hTt : T ≤ t)
    (h1 : ∀ s ∈ db.sessions, s.start_time ≤ T)
    (h2 : ∀ s ∈ db.sessions, s.is_active = false → SessionClosed s) :
    (∀ s ∈ (end_work_session db sid t).1.sessions, s.start_time ≤ T) ∧
    (∀ s ∈ (end_work_session db sid t).1.sessions, s.is_active = false →
      SessionClosed s) := by
  constructor
  · intro s hs
    rw [end_sessions] at hs
    obtain ⟨s0, hs0, rfl⟩ := List.mem_map.mp hs
    rw [end_update_start]
    exact h1 s0 hs0
  · intro s hs hia
    rw [end_sessions] at hs
    obtain ⟨s0, hs0, rfl⟩ := List.mem_map.mp hs
    by_cases hid : s0.id = sid
    · refine ⟨t, ?_, ?_, ?_⟩
      · rw [end_update, if_pos hid]
      · rw [end_update_start]
        exact le_trans (h1 s0 hs0) hTt
      · rw [end_update, if_pos hid]
        show ((t : Int) - (s0.start_time : Int)).tdiv 60 =
          (((t - s0.start_time) / 60 : Nat) : Int)
        exact tdiv_sixty (le_trans (h1 s0 hs0) hTt)
    · rw [end_update_of_ne hid] at hia ⊢
      exact h2 s0 hs0 hia

/-- `open_session` at the current instant establishes the time-dependent
invariants for that instant. -/
theorem timeInv_open_session (st0 : MonState) (p : String) (rid : Nat) (b : String)
    (i : Option String) {T t : Nat} (hTt : T ≤ t)
    (h1 : ∀ s ∈ st0.db.sessions, s.start_time ≤ T)
    (h2 : ∀ s ∈ st0.db.sessions, s.is_active = false → SessionClosed s) :
    TimeInv t (open_session st0 p rid b i t) := by
  constructor
  · intro s hs
    have hs2 : s ∈ (start_work_session st0.db rid b i t).1.sessions := hs
    rw [start_work_session] at hs2
    rcases List.mem_cons.mp hs2 with rfl | hmem
    · exact le_refl _
    · exact le_trans (h1 s hmem) hTt
  · intro s hs hia
    have hs2 : s ∈ (start_work_session st0.db rid b i t).1.sessions := hs
    rw [start_work_session] at hs2
    rcases List.mem_cons.mp hs2 with rfl | hmem
    · simp at hia
    · exact h2 s hmem hia

/-- `_handle_repository_entry` preserves the time-dependent invariants. -/
theorem timeInv_repo_entry {st : MonState} {T : Nat} (h : TimeInv T st)
    (p b : String) (i : Option String) {t : Nat} (hTt : T ≤ t) :
    TimeInv t (handle_repo_entry st p b i t) := by
  obtain ⟨h1, h2⟩ := h
  cases hrepo : get_repository_by_path st.db p with
  | some rid =>
    cases hact : get_active_session_for_repo st.db rid with
    | some ex =>
      by_cases hbr : ex.branch_name = b
      · have hstate : handle_repo_entry st p b i t =
            ⟨st.db, ⟨mapSet st.mon.active_sessions p ex.id⟩⟩ := by
          rw [handle_repo_entry]
          simp only [hrepo, hact, if_pos hbr]
        rw [hstate]
        exact ⟨fun s hs => le_trans (h1 s hs) hTt, h2⟩
      · have hstate : handle_repo_entry st p b i t =
            open_session ⟨(end_work_session st.db ex.id t).1, st.mon⟩ p rid b i t := by
          rw [handle_repo_entry]
          simp only [hrepo, hact, if_neg hbr]
        rw [hstate]
        obtain ⟨g1, g2⟩ := end_preserves_time ex.id hTt h1 h2
        exact timeInv_open_session ⟨(end_work_session st.db ex.id t).1, st.mon⟩
          p rid b i hTt g1 g2
    | none =>
      have hstate : handle_repo_entry st p b i t =
          open_session ⟨st.db, st.mon⟩ p rid b i t := by
        rw [handle_repo_entry]
        simp only [hrepo, hact]
      rw [hstate]
      exact timeInv_open_session ⟨st.db, st.mon⟩ p rid b i hTt h1 h2
  | none =>
    have h1a : ∀ s ∈ (add_repository st.db p).1.sessions, s.start_time ≤ T := h1
    have h2a : ∀ s ∈ (add_repository st.db p).1.sessions, s.is_active = false →
        SessionClosed s := h2
    cases hact : get_active_session_for_repo (add_repository st.db p).1
        (add_repository st.db p).2 with
    | some ex =>
      by_cases hbr : ex.branch_name = b
      · have hstate : handle_repo_entry st p b i t =
            ⟨(add_repository st.db p).1, ⟨mapSet st.mon.active_sessions p ex.id⟩⟩ := by
          rw [handle_repo_entry]
          simp only [hrepo, hact, if_pos hbr]
        rw [hstate]
        exact ⟨fun s hs => le_trans (h1a s hs) hTt, h2a⟩
      · have hstate : handle_repo_entry st p b i t =
            open_session ⟨(end_work_session (add_repository st.db p).1 ex.id t).1, st.mon⟩
              p (add_repository st.db p).2 b i t := by
          rw [handle_repo_entry]
          simp only [hrepo, hact, if_neg hbr]
        rw [hstate]
        obtain ⟨g1, g2⟩ := end_preserves_time ex.id hTt h1a h2a
        exact timeInv_open_session
          ⟨(end_work_session (add_repository st.db p).1 ex.id t).1, st.mon⟩
          p (add_repository st.db p).2 b i hTt g1 g2
    | none =>
      have hstate : handle_repo_entry st p b i t =
          open_session ⟨(add_repository st.db p).1, st.mon⟩ p (add_repository st.db p).2
            b i t := by
        rw [handle_repo_entry]
        simp only [hrepo, hact]
      rw [hstate]
      exact timeInv_open_session ⟨(add_repository st.db p).1, st.mon⟩
        p (add_repository st.db p).2 b i hTt h1a h2a

/-- `_handle_branch_change` preserves the time-dependent invariants. -/
theorem timeInv_branch_change {st : MonState} {T : Nat} (h : TimeInv T st)
    (p nb : String) (i : Option String) {t : Nat} (hTt : T ≤ t) :
    TimeInv t (handle_branch_change st p nb i t) := by
  obtain ⟨h1, h2⟩ := h
  cases hrepo : get_repository_by_path st.db p with
  | none =>
    have hstate : handle_branch_change st p nb i t = st := by
      rw [handle_branch_change]
      simp only [hrepo]
    rw [hstate]
    exact timeInv_mono ⟨h1, h2⟩ hTt
  | some rid =>
    cases hact : get_active_session_for_repo st.db rid with
    | some ex =>
      have hstate : handle_branch_change st p nb i t =
          open_session ⟨(end_work_session st.db ex.id t).1, st.mon⟩ p rid nb i t := by
        rw [handle_branch_change]
        simp only [hrepo, hact]
      rw [hstate]
      obtain ⟨g1, g2⟩ := end_preserves_time ex.id hTt h1 h2
      exact timeInv_open_session ⟨(end_work_session st.db ex.id t).1, st.mon⟩
        p rid nb i hTt g1 g2
    | none =>
      have hstate : handle_branch_change st p nb i t =
          open_session ⟨st.db, st.mon⟩ p rid nb i t := by
        rw [handle_branch_change]
        simp only [hrepo, hact]
      rw [hstate]
      exact timeInv_open_session ⟨st.db, st.mon⟩ p rid nb i hTt h1 h2

/-- Ending the mapped session on shutdown preserves the time-dependent
invariants. -/
theorem timeInv_session_end {st : MonState} {T : Nat} (h : TimeInv T st)
    (p : String) {t : Nat} (hTt : T ≤ t) :
    TimeInv t (handle_session_end st p t) := by
  obtain ⟨h1, h2⟩ := h
  cases hl : mapLookup st.mon.active_sessions p with
  | none =>
    have hstate : handle_session_end st p t = st := by
      rw [handle_session_end]
      simp only [hl]
    rw [hstate]
    exact timeInv_mono ⟨h1, h2⟩ hTt
  | some sid =>
    have hstate : handle_session_end st p t =
        ⟨(end_work_session st.db sid t).1, ⟨mapRemove st.mon.active_sessions p⟩⟩ := by
      rw [handle_session_end]
      simp only [hl]
    rw [hstate]
    obtain ⟨g1, g2⟩ := end_preserves_time sid hTt h1 h2
    exact ⟨fun s hs => le_trans (g1 s hs) hTt, g2⟩

/-- Activity-driven branch-change checking preserves the time-dependent
invariants. -/
theorem timeInv_file_modified {st : MonState} {T : Nat} (h : TimeInv T st)
    (p : String) (cur : Option String) {t : Nat} (hTt : T ≤ t) :
    TimeInv t (handle_file_modified st p cur t) := by
  cases cur with
  | none =>
    simp only [handle_file_modified]
    exact timeInv_mono h hTt
  | some cb =>
    cases hml : mapLookup st.mon.active_sessions p with
    | none =>
      simp only [handle_file_modified, hml]
      exact timeInv_mono h hTt
    | some k =>
      cases hrepo : get_repository_by_path st.db p with
      | none =>
        simp only [handle_file_modified, hml, hrepo]
        exact timeInv_mono h hTt
      | some rid =>
        cases hact : get_active_session_for_repo st.db rid with
        | none =>
          simp only [handle_file_modified, hml, hrepo, hact]
          exact timeInv_mono h hTt
        | some sx =>
          by_cases hbr : sx.branch_name ≠ cb
          · simp only [handle_file_modified, hml, hrepo, hact, if_pos hbr]
            exact timeInv_branch_change h _ _ _ hTt
          · simp only [handle_file_modified, hml, hrepo, hact, if_neg hbr]
            exact timeInv_mono h hTt

/-- Every event at an instant `t ≥ T` carries the time-dependent
invariants from bound `T` to bound `t`. -/
theorem timeInv_monitor_step {st : MonState} {T : Nat} (h : TimeInv T st)
    (e : MonEvent × Nat) (hTt : T ≤ e.2) : TimeInv e.2 (monitor_step st e) := by
  cases e with
  | mk ev t =>
    cases ev with
    | repoEntry p b i => exact timeInv_repo_entry h p b i hTt
    | branchChange p nb i => exact timeInv_branch_change h p nb i hTt
    | fileModified p cb => exact timeInv_file_modified h p cb hTt
    | commitSeen p => exact timeInv_mono h hTt
    | sessionEnd p => exact timeInv_session_end h p hTt

/-- The empty initial state satisfies the time-dependent invariants. -/
theorem timeInv_init : TimeInv 0 init_state :=
  ⟨fun s hs => absurd hs (List.not_mem_nil s),
   fun s hs => absurd hs (List.not_mem_nil s)⟩

/-- Along any run with nondecreasing timestamps the time-dependent
invariants hold at some final bound. -/
theorem timeInv_run_exists :
    ∀ (evs : List (MonEvent × Nat)) (st : MonState) (T : Nat),
      TimeInv T st → monoTimes T evs = true →
      ∃ T2, TimeInv T2 (evs.foldl monitor_step st)
  | [], _, T, h, _ => ⟨T, h⟩
  | e :: rest, st, T, h, hm => by
    rw [monoTimes, Bool.and_eq_true] at hm
    obtain ⟨hTe, hrest⟩ := hm
    rw [List.foldl_cons]
    exact timeInv_run_exists rest _ e.2
      (timeInv_monitor_step h e (of_decide_eq_true hTe)) hrest

/-! ### Completed rows are never touched again -/

/-- `_handle_repository_entry` leaves every completed row in place. -/
theorem inactive_keep_repo_entry {st : MonState} (hdb : DBInv st.db) {s : Session}
    (hs : s ∈ st.db.sessions) (hia : s.is_active = false) (p b : String)
    (i : Option String) (t : Nat) :
    s ∈ (handle_repo_entry st p b i t).db.sessions := by
  cases hrepo : get_repository_by_path st.db p with
  | some rid =>
    cases hact : get_active_session_for_repo st.db rid with
    | some ex =>
      have hne : s.id ≠ ex.id := by
        intro hid
        obtain ⟨hm, _, hav⟩ := getActive_mem hact
        have hse : s = ex := session_id_unique hdb.sess_nodup hs hm hid
        rw [hse, hav] at hia
        exact Bool.noConfusion hia
      by_cases hbr : ex.branch_name = b
      · have hstate : handle_repo_entry st p b i t =
            ⟨st.db, ⟨mapSet st.mon.active_sessions p ex.id⟩⟩ := by
          rw [handle_repo_entry]
          simp only [hrepo, hact, if_pos hbr]
        rw [hstate]
        exact hs
      · have hstate : handle_repo_entry st p b i t =
            open_session ⟨(end_work_session st.db ex.id t).1, st.mon⟩ p rid b i t := by
          rw [handle_repo_entry]
          simp only [hrepo, hact, if_neg hbr]
        rw [hstate]
        show s ∈ (start_work_session (end_work_session st.db ex.id t).1 rid b i t).1.sessions
        rw [start_work_session]
        exact List.mem_cons_of_mem _ (mem_end_of_ne t hs hne)
    | none =>
      have hstate : handle_repo_entry st p b i t =
          open_session ⟨st.db, st.mon⟩ p rid b i t := by
        rw [handle_repo_entry]
        simp only [hrepo, hact]
      rw [hstate]
      show s ∈ (start_work_session st.db rid b i t).1.sessions
      rw [start_work_session]
      exact List.mem_cons_of_mem _ hs
  | none =>
    have hs2 : s ∈ (add_repository st.db p).1.sessions := hs
    cases hact : get_active_session_for_repo (add_repository st.db p).1
        (add_repository st.db p).2 with
    | some ex =>
      have hne : s.id ≠ ex.id := by
        intro hid
        obtain ⟨hm, _, hav⟩ := getActive_mem hact
        have hm2 : ex ∈ st.db.sessions := hm
        have hse : s = ex := session_id_unique hdb.sess_nodup hs hm2 hid
        rw [hse, hav] at hia
        exact Bool.noConfusion hia
      by_cases hbr : ex.branch_name = b
      · have hstate : handle_repo_entry st p b i t =
            ⟨(add_repository st.db p).1, ⟨mapSet st.mon.active_sessions p ex.id⟩⟩ := by
          rw [handle_repo_entry]
          simp only [hrepo, hact, if_pos hbr]
        rw [hstate]
        exact hs2
      · have hstate : handle_repo_entry st p b i t =
            open_session ⟨(end_work_session (add_repository st.db p).1 ex.id t).1, st.mon⟩
              p (add_repository st.db p).2 b i t := by
          rw [handle_repo_entry]
          simp only [hrepo, hact, if_neg hbr]
        rw [hstate]
        show s ∈ (start_work_session (end_work_session (add_repository st.db p).1 ex.id t).1
          (add_repository st.db p).2 b i t).1.sessions
        rw [start_work_session]
        exact List.mem_cons_of_mem _ (mem_end_of_ne t hs2 hne)
    | none =>
      have hstate : handle_repo_entry st p b i t =
          open_session ⟨(add_repository st.db p).1, st.mon⟩ p (add_repository st.db p).2
            b i t := by
        rw [handle_repo_entry]
        simp only [hrepo, hact]
      rw [hstate]
      show s ∈ (start_work_session (add_repository st.db p).1 (add_repository st.db p).2
        b i t).1.sessions
      rw [start_work_session]
      exact List.mem_cons_of_mem _ hs2

/-- `_handle_branch_change` leaves every completed row in place. -/
theorem inactive_keep_branch_change {st : MonState} (hdb : DBInv st.db) {s : Session}
    (hs : s ∈ st.db.sessions) (hia : s.is_active = false) (p nb : String)
    (i : Option String) (t : Nat) :
    s ∈ (handle_branch_change st p nb i t).db.sessions := by
  cases hrepo : get_repository_by_path st.db p with
  | none =>
    have hstate : handle_branch_change st p nb i t = st := by
      rw [handle_branch_change]
      simp only [hrepo]
    rw [hstate]
    exact hs
  | some rid =>
    cases hact : get_active_session_for_repo st.db rid with
    | some ex =>
      have hne : s.id ≠ ex.id := by
        intro hid
        obtain ⟨hm, _, hav⟩ := getActive_mem hact
        have hse : s = ex := session_id_unique hdb.sess_nodup hs hm hid
        rw [hse, hav] at hia
        exact Bool.noConfusion hia
      have hstate : handle_branch_change st p nb i t =
          open_session ⟨(end_work_session st.db ex.id t).1, st.mon⟩ p rid nb i t := by
        rw [handle_branch_change]
        simp only [hrepo, hact]
      rw [hstate]
      show s ∈ (start_work_session (end_work_session st.db ex.id t).1 rid nb i t).1.sessions
      rw [start_work_session]
      exact List.mem_cons_of_mem _ (mem_end_of_ne t hs hne)
    | none =>
      have hstate : handle_branch_change st p nb i t =
          open_session ⟨st.db, st.mon⟩ p rid nb i t := by
        rw [handle_branch_change]
        simp only [hrepo, hact]
      rw [hstate]
      show s ∈ (start_work_session st.db rid nb i t).1.sessions
      rw [start_work_session]
      exact List.mem_cons_of_mem _ hs

/-- Session shutdown leaves every other completed row in place. -/
theorem inactive_keep_session_end {st : MonState} (hdb : DBInv st.db) (hmo : MapOk st)
    {s : Session} (hs : s ∈ st.db.sessions) (hia : s.is_active = false)
    (p : String) (t : Nat) :
    s ∈ (handle_session_end st p t).db.sessions := by
  cases hl : mapLookup st.mon.active_sessions p with
  | none =>
    have hstate : handle_session_end st p t = st := by
      rw [handle_session_end]
      simp only [hl]
    rw [hstate]
    exact hs
  | some sid =>
    obtain ⟨s0, hs0, h01, h02, _⟩ := hmo p sid hl
    have hne : s.id ≠ sid := by
      intro hid
      have hse : s = s0 := session_id_unique hdb.sess_nodup hs hs0 (hid.trans h01.symm)
      rw [hse, h02] at hia
      exact Bool.noConfusion hia
    have hstate : handle_session_end st p t =
        ⟨(end_work_session st.db sid t).1, ⟨mapRemove st.mon.active_sessions p⟩⟩ := by
      rw [handle_session_end]
      simp only [hl]
    rw [hstate]
    show s ∈ (end_work_session st.db sid t).1.sessions
    exact mem_end_of_ne t hs hne

/-- Activity-driven branch-change checking leaves every completed row in
place. -/
theorem inactive_keep_file_modified {st : MonState} (hdb : DBInv st.db) {s : Session}
    (hs : s ∈ st.db.sessions) (hia : s.is_active = false) (p : String)
    (cur : Option String) (t : Nat) :
    s ∈ (handle_file_modified st p cur t).db.sessions := by
  cases cur with
  | none =>
    simp only [handle_file_modified]
    exact hs
  | some cb =>
    cases hml : mapLookup st.mon.active_sessions p with
    | none =>
      simp only [handle_file_modified, hml]
      exact hs
    | some k =>
      cases hrepo : get_repository_by_path st.db p with
      | none =>
        simp only [handle_file_modified, hml, hrepo]
        exact hs
      | some rid =>
        cases hact : get_active_session_for_repo st.db rid with
        | none =>
          simp only [handle_file_modified, hml, hrepo, hact]
          exact hs
        | some sx =>
          by_cases hbr : sx.branch_name ≠ cb
          · simp only [handle_file_modified, hml, hrepo, hact, if_pos hbr]
            exact inactive_keep_branch_change hdb hs hia _ _ _ _
          · simp only [handle_file_modified, hml, hrepo, hact, if_neg hbr]
            exact hs

/-- No event of the session manager removes or rewrites a completed row. -/
theorem inactive_keep_step {st : MonState} (h : InvC st) {s : Session}
    (hs : s ∈ st.db.sessions) (hia : s.is_active = false) (e : MonEvent × Nat) :
    s ∈ (monitor_step st e).db.sessions := by
  cases e with
  | mk ev t =>
    cases ev with
    | repoEntry p b i => exact inactive_keep_repo_entry h.dbi hs hia p b i t
    | branchChange p nb i => exact inactive_keep_branch_change h.dbi hs hia p nb i t
    | fileModified p cb => exact inactive_keep_file_modified h.dbi hs hia p cb t
    | commitSeen p => exact hs
    | sessionEnd p => exact inactive_keep_session_end h.dbi h.map_ok hs hia p t

/-- A completed row survives, unchanged, any further event sequence. -/
theorem inactive_keep_run {s : Session} (hia : s.is_active = false) :
    ∀ (more : List (MonEvent × Nat)) (st : MonState), InvC st →
      s ∈ st.db.sessions → s ∈ (more.foldl monitor_step st).db.sessions
  | [], _, _, hs => hs
  | e :: rest, st, hI, hs => by
    rw [List.foldl_cons]
    exact inactive_keep_run hia rest _ (invC_monitor_step hI e)
      (inactive_keep_step hI hs hia e)

/-- C2: along any run with nondecreasing timestamps, every completed work
session carries an `end_time` set at the instant it was ended, with
`total_minutes = floor((end_time - start_time)/60)`; and the row is never
recomputed afterwards: it persists unchanged through every continuation of
the run. -/
theorem C2_total_minutes_set_once (evs : List (MonEvent × Nat)) (s : Session)
    (hm : monoTimes 0 evs = true)
    (hs : s ∈ (monitor_run evs).db.sessions)
    (hia : s.is_active = false) :
    (∃ e, s.end_time = some e ∧ s.start_time ≤ e ∧
      s.total_minutes = (((e - s.start_time) / 60 : Nat) : Int)) ∧
    ∀ more, s ∈ (monitor_run (evs ++ more)).db.sessions := by
  obtain ⟨T2, hT2⟩ := timeInv_run_exists evs init_state 0 timeInv_init hm
  constructor
  · exact hT2.completed_ok s hs hia
  · intro more
    rw [monitor_run, List.foldl_append]
    exact inactive_keep_run hia more _ (invC_run evs) hs

/-- A session opened at instant 0 and ended at instant 90 is recorded with
`total_minutes = 1 = (90 - 0) / 60` and survives a later commit event. -/
theorem C2_total_minutes_set_once_witness :
    (∃ e, ({ id := 0, repository_id := 0, branch_name := "main", jira_issue := none,
             start_time := 0, end_time := some 90, total_minutes := 1,
             is_active := false, status := "completed" } : Session).end_time = some e ∧
      ({ id := 0, repository_id := 0, branch_name := "main", jira_issue := none,
         start_time := 0, end_time := some 90, total_minutes := 1,
         is_active := false, status := "completed" } : Session).start_time ≤ e ∧
      ({ id := 0, repository_id := 0, branch_name := "main", jira_issue := none,
         start_time := 0, end_time := some 90, total_minutes := 1,
         is_active := false, status := "completed" } : Session).total_minutes =
        (((e - ({ id := 0, repository_id := 0, branch_name := "main",
                  jira_issue := none, start_time := 0, end_time := some 90,
                  total_minutes := 1, is_active := false,
                  status := "completed" } : Session).start_time) / 60 : Nat) : Int)) ∧
    ({ id := 0, repository_id := 0, branch_name := "main", jira_issue := none,
       start_time := 0, end_time := some 90, total_minutes := 1,
       is_active := false, status := "completed" } : Session) ∈
      (monitor_run ([(MonEvent.repoEntry "p" "main" none, 0),
        (MonEvent.sessionEnd "p", 90)] ++
        [(MonEvent.commitSeen "p", 100)])).db.sessions :=
  ⟨(C2_total_minutes_set_once
      [(MonEvent.repoEntry "p" "main" none, 0), (MonEvent.sessionEnd "p", 90)]
      { id := 0, repository_id := 0, branch_name := "main", jira_issue := none,
        start_time := 0, end_time := some 90, total_minutes := 1,
        is_active := false, status := "completed" }
      (by decide) (by decide) rfl).1,
   (C2_total_minutes_set_once
      [(MonEvent.repoEntry "p" "main" none, 0), (MonEvent.sessionEnd "p", 90)]
      { id := 0, repository_id := 0, branch_name := "main", jira_issue := none,
        start_time := 0, end_time := some 90, total_minutes := 1,
        is_active := false, status := "completed" }
      (by decide) (by decide) rfl).2 [(MonEvent.commitSeen "p", 100)]⟩

end DevPeace
